import Mathlib

/-!
Shallow embedding of the Identity Resolution Lab core (App.tsx /
geminiService.ts) and proofs of the specification claims.

Conventions of the embedding:
* JavaScript numbers (`performance.now()` durations, `confidence_score`)
  are modelled as `Rat`; `Date.now()` timestamps as `Int`.
* Remote calls (Gemini endpoints, `JSON.parse` of model output) are
  opaque collaborators; each call site receives its outcome from an
  environment record.  The callback-driven service functions are
  embedded as pure functions from such an environment to the ordered
  list of callback invocations they perform.
* React state updates (`setHistory(prev => prev.map(...))`) are embedded
  as explicit mutation values (`Mut`) applied to the history list.
-/

namespace IRLab

/-- Sentiment enumeration of the `MergedProfile` schema
(`'Positive' | 'Neutral' | 'Negative'`). -/
inductive Sentiment
  | positive
  | neutral
  | negative
deriving DecidableEq, Repr

/-- String rendering of a sentiment value as it appears in JSON / CSV. -/
def Sentiment.toText : Sentiment → String
  | .positive => "Positive"
  | .neutral => "Neutral"
  | .negative => "Negative"

/-- `MergedProfile` (types.ts, reproduced in API_DOCUMENTATION.md):
the structured output schema of all resolution calls. -/
structure MergedProfile where
  customer_id : String
  name : String
  email : String
  phone : String
  current_tier : String
  latest_sentiment : Sentiment
  identified_intent : String
  updates_applied : List String
  confidence_score : Rat
  reasoning_insight : Option String
deriving DecidableEq, Repr

/-- `CustomerRecord`: the structured source attributes of a work item
(fields as constructed in `addManualToQueue`; `phone` may be `null`). -/
structure CustomerRecord where
  customer_id : String
  name : String
  email : String
  phone : Option String
  current_tier : String
  last_updated : String
deriving DecidableEq, Repr

/-- `InputData`: one work item (id, source record, transcript, timestamp). -/
structure InputData where
  id : String
  customerRecord : CustomerRecord
  chatTranscript : String
  timestamp : Int
deriving DecidableEq, Repr

/-- `ModelResolution.status`: `'pending' | 'processing' | 'completed' | 'error'`. -/
inductive Status
  | pending
  | processing
  | completed
  | error
deriving DecidableEq, Repr

/-- `ModelResolution`: per-model wrapper
`{ output, logs, durationMs, status, thinkingText? }`. -/
structure ModelResolution where
  output : Option MergedProfile
  logs : List String
  durationMs : Rat
  status : Status
  thinkingText : Option String
deriving DecidableEq, Repr

/-- The consolidated (Golden Record) resolution: the shape written by
`executeItemProcessing`'s consolidation branch — same as `ModelResolution`
minus the streamed-text field. -/
structure ConsolidatedResolution where
  output : Option MergedProfile
  logs : List String
  durationMs : Rat
  status : Status
deriving DecidableEq, Repr

/-- `ProcessedResult`: one history entry
`{ id, input, flash, pro, consolidated?, summary? }`. -/
structure ProcessedResult where
  id : String
  input : InputData
  flash : ModelResolution
  pro : ModelResolution
  consolidated : Option ConsolidatedResolution
  summary : Option String
deriving DecidableEq, Repr

/-- `ProcessingMode`: `'Flash' | 'Pro' | 'Both'`. -/
inductive Mode
  | flash
  | pro
  | both
deriving DecidableEq, Repr

/-! ## Remote Inference Gateway (geminiService.ts)

Each service function is embedded as a pure function from a call
environment (the opaque collaborator outcomes) to the ordered list of
callback invocations it performs. -/

/-- Environment of one streaming call (`generateContentStream` plus the
subsequent `JSON.parse`):
* `apiKey`: whether `process.env.API_KEY` is set (`getClient` throws otherwise);
* `chunks`: the `chunk.text` values delivered before the stream ends or faults
  (a chunk with empty text is skipped by the `if (chunk.text)` guard);
* `fault`: `some msg` when the transport faults (at call issuance or
  mid-stream) after delivering `chunks`;
* `parse`: the outcome of `JSON.parse` on a given (cleaned) text —
  an opaque collaborator. -/
structure StreamEnv where
  apiKey : Bool
  chunks : List String
  fault : Option String
  parse : String → Except String MergedProfile

/-- Callback invocations of one streaming service call. -/
inductive Ev
  | update (text : String)
  | done (profile : MergedProfile)
  | fail (message : String)
deriving Repr

/-- An `Ev` is terminal when it is an `onComplete` or `onError` invocation. -/
def Ev.isTerminal : Ev → Bool
  | .update _ => false
  | .done _ => true
  | .fail _ => true

/-- `Ev.done`? -/
def Ev.isDone : Ev → Bool
  | .done _ => true
  | _ => false

/-- The markdown code-fence stripping applied before every JSON parse:
`fullText.replace(/```json/g, '').replace(/```/g, '').trim()`. -/
def cleanText (s : String) : String :=
  ((s.replace "```json" "").replace "```" "").trim

/-- The `onUpdate` events of the streaming loop: each nonempty chunk is
appended to the accumulator and the cumulative text is reported.
Returns the events together with the final accumulated `fullText`. -/
def streamUpdates (acc : String) : List String → List Ev × String
  | [] => ([], acc)
  | c :: cs =>
    if c.isEmpty then streamUpdates acc cs
    else
      let acc' := acc ++ c
      let r := streamUpdates acc' cs
      (.update acc' :: r.1, r.2)

/-- `mergeWithFlash` (geminiService.ts): the ordered list of callback
invocations of one fast-path call, as a function of the call environment. -/
def mergeWithFlash (env : StreamEnv) : List Ev :=
  if !env.apiKey then
    [.fail "API Error: API Key not found. Please ensure your environment is configured."]
  else
    let r := streamUpdates "" env.chunks
    match env.fault with
    | some m => r.1 ++ [.fail ("API Error: " ++ m)]
    | none =>
      match env.parse (cleanText r.2) with
      | .ok j => r.1 ++ [.done j]
      | .error e => r.1 ++ [.fail ("Parse Error: Output was not valid JSON. " ++ e)]

/-- `mergeWithProStream` (geminiService.ts): same contract as
`mergeWithFlash` with the deep-path error classifications. -/
def mergeWithProStream (env : StreamEnv) : List Ev :=
  if !env.apiKey then
    [.fail "Pro Engine Fault: API Key not found. Please ensure your environment is configured."]
  else
    let r := streamUpdates "" env.chunks
    match env.fault with
    | some m => r.1 ++ [.fail ("Pro Engine Fault: " ++ m)]
    | none =>
      match env.parse (cleanText r.2) with
      | .ok j => r.1 ++ [.done j]
      | .error e =>
        r.1 ++ [.fail ("Structure Error: Deep reasoning failed to produce expected schema. " ++ e)]

/-- Environment of one `summarizeTranscript` call: `none` when anything
inside the `try` faults (missing key, transport, missing text), otherwise
the response text. -/
def summarizeTranscript (outcome : Option String) : String :=
  match outcome with
  | none => "Summary generation failed."
  | some t => if t.trim.isEmpty then "No summary available." else t.trim

/-! ## Resolution State Store: the history mutations of App.tsx

Every state update App.tsx performs on the history goes through
`setHistory`; the keyed updates all have the shape
`prev.map(h => h.id === id ? upd(h) : h)`. -/

/-- `initialRes` (processQueue): a fresh per-model resolution. -/
def initialRes (st : Status) : ModelResolution :=
  { output := none, logs := [], durationMs := 0, status := st, thinkingText := some "" }

/-- `newEntry` (processQueue): the history record created when an item is
dequeued; the path not selected by the mode is marked `pending`. -/
def newEntry (item : InputData) (mode : Mode) : ProcessedResult :=
  { id := item.id
    input := item
    flash := initialRes (if mode = .pro then .pending else .processing)
    pro := initialRes (if mode = .flash then .pending else .processing)
    consolidated := none
    summary := none }

/-- Whether a mode fires the flash path (`mode === 'Flash' || mode === 'Both'`). -/
def Mode.usesFlash : Mode → Bool
  | .flash => true
  | .pro => false
  | .both => true

/-- Whether a mode fires the pro path (`mode === 'Pro' || mode === 'Both'`). -/
def Mode.usesPro : Mode → Bool
  | .flash => false
  | .pro => true
  | .both => true

/-- `{ ...path, thinkingText: text }` — a streaming update. -/
def thinkingUpd (t : String) (m : ModelResolution) : ModelResolution :=
  { m with thinkingText := some t }

/-- Flash `onComplete`:
`{ ...h.flash, output: json, durationMs, status: 'completed', logs: [...] }`. -/
def flashDoneUpd (p : MergedProfile) (dur : Rat) (m : ModelResolution) : ModelResolution :=
  { m with output := some p, durationMs := dur, status := .completed,
           logs := ["Flash: Rapid Merge Complete."] }

/-- Pro `onComplete`. -/
def proDoneUpd (p : MergedProfile) (dur : Rat) (m : ModelResolution) : ModelResolution :=
  { m with output := some p, durationMs := dur, status := .completed,
           logs := ["Pro: Deep reasoning complete."] }

/-- `onError` of either path: `{ ...path, status: 'error', logs: [err] }`. -/
def failUpd (err : String) (m : ModelResolution) : ModelResolution :=
  { m with status := .error, logs := [err] }

/-- The per-path reset of `handleRetry`:
`{ ...path, status: 'processing', logs: [], thinkingText: '' }`. -/
def retryResetPath (m : ModelResolution) : ModelResolution :=
  { m with status := .processing, logs := [], thinkingText := some "" }

/-- The record transformation of `handleRetry`'s reset commit: resets the
paths selected by the current mode and discards `consolidated`. -/
def retryResetRec (mode : Mode) (h : ProcessedResult) : ProcessedResult :=
  { h with
    flash := if mode.usesFlash then retryResetPath h.flash else h.flash
    pro := if mode.usesPro then retryResetPath h.pro else h.pro
    consolidated := none }

/-- Consolidation start:
`{ output: null, logs: ['Initiating synthesis...'], durationMs: 0, status: 'processing' }`. -/
def consolInitRes : ConsolidatedResolution :=
  { output := none, logs := ["Initiating synthesis..."], durationMs := 0, status := .processing }

/-- Consolidation success commit. -/
def consolDoneRes (p : MergedProfile) (dur : Rat) : ConsolidatedResolution :=
  { output := some p, logs := ["Consolidation complete: Golden Record established."],
    durationMs := dur, status := .completed }

/-- Consolidation failure commit. -/
def consolFailRes (msg : String) : ConsolidatedResolution :=
  { output := none, logs := ["Consolidation Error: " ++ msg], durationMs := 0, status := .error }

/-- The history mutations App.tsx commits via `setHistory` (together with
the queue-independent `appendEntry` of `processQueue` and `clearHistory`). -/
inductive Mut
  | appendEntry (item : InputData) (mode : Mode)
  | flashThinking (id : String) (text : String)
  | flashDone (id : String) (p : MergedProfile) (dur : Rat)
  | flashFail (id : String) (err : String)
  | proThinking (id : String) (text : String)
  | proDone (id : String) (p : MergedProfile) (dur : Rat)
  | proFail (id : String) (err : String)
  | setSummary (id : String) (s : String)
  | consolInit (id : String)
  | consolDone (id : String) (p : MergedProfile) (dur : Rat)
  | consolFail (id : String) (msg : String)
  | retryReset (id : String) (mode : Mode)
  | clearHistory
deriving DecidableEq, Repr

/-- The record-level effect of a keyed mutation (what the code applies to
the record whose `id` matches). -/
def Mut.recUpd : Mut → ProcessedResult → ProcessedResult
  | .flashThinking _ t, h => { h with flash := thinkingUpd t h.flash }
  | .flashDone _ p d, h => { h with flash := flashDoneUpd p d h.flash }
  | .flashFail _ e, h => { h with flash := failUpd e h.flash }
  | .proThinking _ t, h => { h with pro := thinkingUpd t h.pro }
  | .proDone _ p d, h => { h with pro := proDoneUpd p d h.pro }
  | .proFail _ e, h => { h with pro := failUpd e h.pro }
  | .setSummary _ s, h => { h with summary := some s }
  | .consolInit _, h => { h with consolidated := some consolInitRes }
  | .consolDone _ p d, h => { h with consolidated := some (consolDoneRes p d) }
  | .consolFail _ m, h => { h with consolidated := some (consolFailRes m) }
  | .retryReset _ mode, h => retryResetRec mode h
  | .appendEntry _ _, h => h
  | .clearHistory, h => h

/-- `prev.map(h => h.id === i ? f(h) : h)`. -/
def updAt (i : String) (f : ProcessedResult → ProcessedResult)
    (hist : List ProcessedResult) : List ProcessedResult :=
  hist.map fun h => if h.id = i then f h else h

/-- Applying one mutation to the history. -/
def applyMut (hist : List ProcessedResult) : Mut → List ProcessedResult
  | .appendEntry item mode => hist ++ [newEntry item mode]
  | .clearHistory => []
  | .flashThinking i t => updAt i (Mut.recUpd (.flashThinking i t)) hist
  | .flashDone i p d => updAt i (Mut.recUpd (.flashDone i p d)) hist
  | .flashFail i e => updAt i (Mut.recUpd (.flashFail i e)) hist
  | .proThinking i t => updAt i (Mut.recUpd (.proThinking i t)) hist
  | .proDone i p d => updAt i (Mut.recUpd (.proDone i p d)) hist
  | .proFail i e => updAt i (Mut.recUpd (.proFail i e)) hist
  | .setSummary i s => updAt i (Mut.recUpd (.setSummary i s)) hist
  | .consolInit i => updAt i (Mut.recUpd (.consolInit i)) hist
  | .consolDone i p d => updAt i (Mut.recUpd (.consolDone i p d)) hist
  | .consolFail i m => updAt i (Mut.recUpd (.consolFail i m)) hist
  | .retryReset i mode => updAt i (Mut.recUpd (.retryReset i mode)) hist

/-- Applying a sequence of mutations in commit order. -/
def applyMuts (hist : List ProcessedResult) (ms : List Mut) : List ProcessedResult :=
  ms.foldl applyMut hist

/-- The reachable states of the history store: everything obtainable from
the empty history by the mutations App.tsx can commit. -/
inductive Reachable : List ProcessedResult → Prop
  | nil : Reachable []
  | step (hist : List ProcessedResult) (m : Mut) :
      Reachable hist → Reachable (applyMut hist m)

/-! ## Per-Item Resolution Orchestrator (`executeItemProcessing`) -/

/-- Environment of one `executeItemProcessing` invocation: the outcomes of
the remote calls it issues, the measured durations, and the event-loop
schedule (the interleaving of the two concurrent callback streams and the
landing position of the unawaited summary `.then` commit). -/
structure ItemEnv where
  flash : StreamEnv
  pro : StreamEnv
  summaryOutcome : Option String
  arbiter : MergedProfile → MergedProfile → Except String MergedProfile
  flashDur : Rat
  proDur : Rat
  consolDur : Rat
  ileave : List Bool
  summaryPos : Nat

/-- Translating a flash callback invocation into its history commit. -/
def flashEvMut (i : String) (dur : Rat) : Ev → Mut
  | .update t => .flashThinking i t
  | .done p => .flashDone i p dur
  | .fail e => .flashFail i e

/-- Translating a pro callback invocation into its history commit. -/
def proEvMut (i : String) (dur : Rat) : Ev → Mut
  | .update t => .proThinking i t
  | .done p => .proDone i p dur
  | .fail e => .proFail i e

/-- The commits of the flash branch (empty when the mode does not fire it:
`flashPromise` is `Promise.resolve()`). -/
def flashMuts (item : InputData) (mode : Mode) (env : ItemEnv) : List Mut :=
  if mode.usesFlash then (mergeWithFlash env.flash).map (flashEvMut item.id env.flashDur)
  else []

/-- The commits of the pro branch. -/
def proMuts (item : InputData) (mode : Mode) (env : ItemEnv) : List Mut :=
  if mode.usesPro then (mergeWithProStream env.pro).map (proEvMut item.id env.proDur)
  else []

/-- The value of a local result variable (`flashRes`/`proRes`) after the
call settled: assigned by the `onComplete` callback, `null` otherwise. -/
def lastDone (evs : List Ev) : Option MergedProfile :=
  evs.foldl (fun acc e => match e with | .done p => some p | _ => acc) none

/-- `flashRes` after `Promise.all`. -/
def flashRes (mode : Mode) (env : ItemEnv) : Option MergedProfile :=
  if mode.usesFlash then lastDone (mergeWithFlash env.flash) else none

/-- `proRes` after `Promise.all`. -/
def proRes (mode : Mode) (env : ItemEnv) : Option MergedProfile :=
  if mode.usesPro then lastDone (mergeWithProStream env.pro) else none

/-- The consolidation commits: fired only when
`mode === 'Both' && flashRes && proRes`. -/
def consolMuts (item : InputData) (mode : Mode) (env : ItemEnv) : List Mut :=
  match mode, flashRes mode env, proRes mode env with
  | .both, some f, some p =>
    .consolInit item.id ::
      (match env.arbiter f p with
       | .ok j => [.consolDone item.id j env.consolDur]
       | .error m => [.consolFail item.id m])
  | _, _, _ => []

/-- Merging two commit streams under an interleaving schedule: each flag
takes the next commit of the corresponding stream (an exhausted stream
yields to the other).  Preserves the per-stream commit order. -/
def merge2 : List Bool → List α → List α → List α
  | [], xs, ys => xs ++ ys
  | b :: bs, xs, ys =>
    if b then
      match xs with
      | [] => ys
      | x :: xs' => x :: merge2 bs xs' ys
    else
      match ys with
      | [] => xs
      | y :: ys' => y :: merge2 bs xs ys'

/-- Inserting an element at (or after) position `n`. -/
def insertAt (n : Nat) (a : α) : List α → List α
  | l =>
    match n, l with
    | 0, l => a :: l
    | _ + 1, [] => [a]
    | n + 1, x :: xs => x :: insertAt n a xs

/-- The full commit trace of `executeItemProcessing item mode`: the two
concurrent branches interleave arbitrarily, consolidation commits come
strictly after both branches settle, and the unawaited summary commit
lands at an arbitrary position. -/
def executeTrace (item : InputData) (mode : Mode) (env : ItemEnv) : List Mut :=
  insertAt env.summaryPos
    (.setSummary item.id (summarizeTranscript env.summaryOutcome))
    (merge2 env.ileave (flashMuts item mode env) (proMuts item mode env)
      ++ consolMuts item mode env)

/-- The history after one `executeItemProcessing` invocation. -/
def execHist (item : InputData) (mode : Mode) (env : ItemEnv)
    (hist : List ProcessedResult) : List ProcessedResult :=
  applyMuts hist (executeTrace item mode env)

/-! ## Queue Scheduler (`processQueue`) and Retry Coordinator (`handleRetry`) -/

/-- The App state relevant to the scheduler. -/
structure AppState where
  queue : List InputData
  history : List ProcessedResult
  isProcessing : Bool
  selectedMode : Mode

/-- The drain loop (`processNext`): pop the head item, append its fresh
record, run the orchestrator, continue.  The mode is the one captured by
the `processQueue` closure. -/
def drain (m0 : Mode) (envF : InputData → ItemEnv) :
    List InputData → List ProcessedResult → List ProcessedResult
  | [], hist => hist
  | i :: rest, hist =>
    drain m0 envF rest (execHist i m0 (envF i) (hist ++ [newEntry i m0]))

/-- `processQueue`: no-op when already processing or the queue is empty,
otherwise drains the whole queue with the mode selected at invocation. -/
def processQueue (s : AppState) (envF : InputData → ItemEnv) : AppState :=
  if s.isProcessing ∨ s.queue = [] then s
  else
    { s with
      queue := []
      history := drain s.selectedMode envF s.queue s.history
      isProcessing := false }

/-- `handleRetry id`: look up the record; reset the paths of the current
mode and discard the consolidated result; re-run the orchestrator on the
record's original stored input. -/
def handleRetry (i : String) (s : AppState) (env : ItemEnv) : AppState :=
  match s.history.find? (fun h => h.id = i) with
  | none => s
  | some entry =>
    { s with
      history :=
        execHist entry.input s.selectedMode env
          (updAt i (retryResetRec s.selectedMode) s.history) }

/-! ## Scheduler trace (temporal ordering of one drain) -/

/-- Externally visible scheduler events of one drain. -/
inductive SchedEv
  | append (id : String)
  | orchStart (id : String)
  | orchEnd (id : String)
  | delay
deriving DecidableEq, Repr

/-- `orchStart`? -/
def SchedEv.isStart : SchedEv → Bool
  | .orchStart _ => true
  | _ => false

/-- `orchEnd`? -/
def SchedEv.isEnd : SchedEv → Bool
  | .orchEnd _ => true
  | _ => false

/-- `append`? -/
def SchedEv.isAppend : SchedEv → Bool
  | .append _ => true
  | _ => false

/-- The id carried by an `append` event. -/
def SchedEv.appendId : SchedEv → Option String
  | .append i => some i
  | _ => none

/-- The id carried by an `orchStart` event. -/
def SchedEv.startId : SchedEv → Option String
  | .orchStart i => some i
  | _ => none

/-- The event trace of one drain: per item, append its record, run its
orchestrator to settlement, then (when more items remain) the fixed
`setTimeout(processNext, 1500)` inter-item delay. -/
def drainTrace : List InputData → List SchedEv
  | [] => []
  | [i] => [.append i.id, .orchStart i.id, .orchEnd i.id]
  | i :: j :: rest =>
    .append i.id :: .orchStart i.id :: .orchEnd i.id :: .delay :: drainTrace (j :: rest)

/-! ## Mode capture across a drain (`processNext` closure semantics) -/

/-- Result of a drain run under interleaved mode changes. -/
structure DrainOut where
  history : List ProcessedResult
  uiMode : Mode
  applied : List Mode

/-- The drain loop with an optional `setSelectedMode` commit interleaved
while each item is in flight.  `processNext` is a closure of the
`processQueue` invocation, so the mode it passes to `newEntry` and
`executeItemProcessing` is the captured `m0`, not the live UI mode; the
`applied` component records the mode actually passed for each item. -/
def drainUI (m0 : Mode) (envF : InputData → ItemEnv) :
    List InputData → List (Option Mode) → List ProcessedResult → Mode → DrainOut
  | [], _, hist, ui => { history := hist, uiMode := ui, applied := [] }
  | i :: rest, changes, hist, ui =>
    let ui' := (changes.headD none).getD ui
    let r := drainUI m0 envF rest changes.tail (execHist i m0 (envF i) (hist ++ [newEntry i m0])) ui'
    { history := r.history, uiMode := r.uiMode, applied := m0 :: r.applied }

/-! ## Export collaborator (`exportData`, CSV branch) -/

/-- JavaScript `x || d` on an optional string field access (`out?.f || d`):
`undefined` and the empty string are falsy. -/
def jsOrStr (v : Option String) (d : String) : String :=
  match v with
  | some s => if s.isEmpty then d else s
  | none => d

/-- JavaScript `x || 0` on an optional numeric field access: `undefined`
and `0` are falsy. -/
def jsOrNum (v : Option Rat) : Rat :=
  match v with
  | some q => if q = 0 then 0 else q
  | none => 0

/-- Rendering a number into the CSV row (abstraction of the JavaScript
number-to-string conversion performed by `Array.join`). -/
def ratText (q : Rat) : String :=
  if q.den = 1 then toString q.num else toString q.num ++ "/" ++ toString q.den

/-- `[...].join(sep)`. -/
def joinSep (sep : String) : List String → String
  | [] => ""
  | [x] => x
  | x :: y :: ys => x ++ sep ++ joinSep sep (y :: ys)

/-- The profile a CSV row reads its fields from:
`h.consolidated?.output || h.pro.output || h.flash.output`. -/
def csvProfile (h : ProcessedResult) : Option MergedProfile :=
  ((h.consolidated.bind ConsolidatedResolution.output).or h.pro.output).or h.flash.output

/-- The six field values of one CSV data row. -/
def csvFields (h : ProcessedResult) : List String :=
  let out := csvProfile h
  [h.id,
   jsOrStr (out.map MergedProfile.name) h.input.customerRecord.name,
   jsOrStr (out.map fun o : MergedProfile => o.latest_sentiment.toText) "N/A",
   jsOrStr (out.map MergedProfile.identified_intent) "N/A",
   ratText (jsOrNum (out.map MergedProfile.confidence_score)),
   jsOrStr (out.map MergedProfile.current_tier) "N/A"]

/-- One CSV data row: the plain comma join of the six field values. -/
def csvRow (h : ProcessedResult) : String :=
  joinSep "," (csvFields h)

/-- The CSV header row. -/
def csvHeader : String :=
  joinSep "," ["ID", "Customer", "Sentiment", "Intent", "Confidence", "Tier"]

/-- `exportData('csv', historyId?)`: filter the history, produce no output
when the selection is empty, otherwise the header plus one row per record. -/
def exportCsv (hist : List ProcessedResult) (historyId : Option String) : Option String :=
  let dataToExport : List ProcessedResult :=
    match historyId with
    | some i => hist.filter fun h => h.id = i
    | none => hist
  if dataToExport.isEmpty then none
  else some (joinSep "\n" (csvHeader :: dataToExport.map csvRow))

/-- The number of comma-separated columns of a row (one more than the
number of comma characters: `Array.join` performs no quoting). -/
def numCols (s : String) : Nat :=
  s.data.count ',' + 1

/-! ## Component analysis of the mutations (for the proofs) -/

/-- The record key a mutation is committed against (`none` for the
non-keyed queue/history operations). -/
def Mut.key : Mut → Option String
  | .appendEntry _ _ => none
  | .clearHistory => none
  | .flashThinking i _ => some i
  | .flashDone i _ _ => some i
  | .flashFail i _ => some i
  | .proThinking i _ => some i
  | .proDone i _ _ => some i
  | .proFail i _ => some i
  | .setSummary i _ => some i
  | .consolInit i => some i
  | .consolDone i _ _ => some i
  | .consolFail i _ => some i
  | .retryReset i _ => some i

/-- Commits that touch only the `flash` component. -/
def Mut.isFlashCommit : Mut → Bool
  | .flashThinking _ _ => true
  | .flashDone _ _ _ => true
  | .flashFail _ _ => true
  | _ => false

/-- Commits that touch only the `pro` component. -/
def Mut.isProCommit : Mut → Bool
  | .proThinking _ _ => true
  | .proDone _ _ _ => true
  | .proFail _ _ => true
  | _ => false

/-- Commits that touch only the `consolidated` component. -/
def Mut.isConsolCommit : Mut → Bool
  | .consolInit _ => true
  | .consolDone _ _ _ => true
  | .consolFail _ _ => true
  | _ => false

/-- The `flash`-component part of a mutation. -/
def Mut.flashPart : Mut → ModelResolution → ModelResolution
  | .flashThinking _ t => thinkingUpd t
  | .flashDone _ p d => flashDoneUpd p d
  | .flashFail _ e => failUpd e
  | _ => id

/-- The `pro`-component part of a mutation. -/
def Mut.proPart : Mut → ModelResolution → ModelResolution
  | .proThinking _ t => thinkingUpd t
  | .proDone _ p d => proDoneUpd p d
  | .proFail _ e => failUpd e
  | _ => id

/-- The `consolidated`-component part of a mutation. -/
def Mut.consolPart : Mut → Option ConsolidatedResolution → Option ConsolidatedResolution
  | .consolInit _ => fun _ => some consolInitRes
  | .consolDone _ p d => fun _ => some (consolDoneRes p d)
  | .consolFail _ m => fun _ => some (consolFailRes m)
  | _ => id

/-- Record-level application of a commit sequence. -/
def applyRec (h : ProcessedResult) (ms : List Mut) : ProcessedResult :=
  ms.foldl (fun h m => m.recUpd h) h

/-- Folding the `flash` parts of a commit sequence over a path state. -/
def applyFlashPart (x : ModelResolution) (ms : List Mut) : ModelResolution :=
  ms.foldl (fun x m => m.flashPart x) x

/-- Folding the `pro` parts of a commit sequence over a path state. -/
def applyProPart (x : ModelResolution) (ms : List Mut) : ModelResolution :=
  ms.foldl (fun x m => m.proPart x) x

/-- `setSummary`? -/
def Mut.isSummaryCommit : Mut → Bool
  | .setSummary _ _ => true
  | _ => false

/-- The commit that starts a consolidation attempt
(`consolidated: { ..., status: 'processing' }` before `consolidateResults`). -/
def Mut.isConsolInit : Mut → Bool
  | .consolInit _ => true
  | _ => false

/-- The number of consolidation attempts started by one
`executeItemProcessing` run. -/
def consolAttempts (item : InputData) (mode : Mode) (env : ItemEnv) : Nat :=
  (executeTrace item mode env).countP fun m => m.isConsolInit

/-- The `consolidated` value after the consolidation stage of
`executeItemProcessing` (unchanged when consolidation is not attempted). -/
def consolAfter (mode : Mode) (env : ItemEnv)
    (c : Option ConsolidatedResolution) : Option ConsolidatedResolution :=
  match mode, flashRes mode env, proRes mode env with
  | .both, some f, some p =>
    some (match env.arbiter f p with
          | .ok j => consolDoneRes j env.consolDur
          | .error m => consolFailRes m)
  | _, _, _ => c

/-! ## Concrete fixtures (used to evaluate the development on closed runs) -/

/-- A concrete source record. -/
def sampleRecord : CustomerRecord :=
  { customer_id := "C-1", name := "Ada", email := "ada@example.com", phone := none,
    current_tier := "Gold", last_updated := "2024-01-01" }

/-- A concrete work item. -/
def sampleItem : InputData :=
  { id := "A", customerRecord := sampleRecord, chatTranscript := "hello", timestamp := 0 }

/-- A second concrete work item. -/
def sampleItem2 : InputData :=
  { id := "B", customerRecord := sampleRecord, chatTranscript := "hi", timestamp := 1 }

/-- A concrete profile as parsed from a model response. -/
def sampleProfile : MergedProfile :=
  { customer_id := "C-1", name := "Ada L", email := "ada@new.example.com", phone := "1",
    current_tier := "Gold", latest_sentiment := .positive, identified_intent := "update",
    updates_applied := ["email"], confidence_score := 1, reasoning_insight := none }

/-- A streaming call that succeeds with `sampleProfile`. -/
def okStream : StreamEnv :=
  { apiKey := true, chunks := ["x"], fault := none, parse := fun _ => .ok sampleProfile }

/-- A streaming call that faults at the transport layer. -/
def failStream : StreamEnv :=
  { apiKey := true, chunks := [], fault := some "boom", parse := fun _ => .error "unreachable" }

/-- An orchestrator environment in which every remote call succeeds. -/
def okEnv : ItemEnv :=
  { flash := okStream, pro := okStream, summaryOutcome := some "fine",
    arbiter := fun _ _ => .ok sampleProfile, flashDur := 1, proDur := 2, consolDur := 3,
    ileave := [], summaryPos := 0 }

/-- An orchestrator environment whose pro branch faults and whose
summarize call faults. -/
def proFailEnv : ItemEnv :=
  { flash := okStream, pro := failStream, summaryOutcome := none,
    arbiter := fun _ _ => .ok sampleProfile, flashDur := 1, proDur := 2, consolDur := 3,
    ileave := [], summaryPos := 0 }

/-! ## Invariant predicates over the store -/

/-- The spec's stated invariant on one per-model resolution:
`resultPayload` is non-null iff `state == Completed`. -/
def outputIffCompleted (m : ModelResolution) : Prop :=
  m.output ≠ none ↔ m.status = .completed

/-- The direction of the invariant the code actually maintains:
a `completed` resolution always carries a payload. -/
def completedHasOutput (m : ModelResolution) : Prop :=
  m.status = .completed → m.output ≠ none

/-- The same direction for an optional consolidated resolution. -/
def consolCompletedHasOutput : Option ConsolidatedResolution → Prop
  | none => True
  | some c => c.status = .completed → c.output ≠ none

/-- The per-record invariant maintained at every reachable store state. -/
def RecInv (r : ProcessedResult) : Prop :=
  completedHasOutput r.flash ∧ completedHasOutput r.pro ∧
    consolCompletedHasOutput r.consolidated

/-- A reachable store state exhibiting the failure of the iff invariant:
dequeue an item, complete its flash path, then commit a retry reset. -/
def cexHist : List ProcessedResult :=
  applyMut (applyMut (applyMut [] (.appendEntry sampleItem .both))
    (.flashDone "A" sampleProfile 1)) (.retryReset "A" .both)

/-- The single record of `cexHist`. -/
def cexRec : ProcessedResult :=
  retryResetRec .both
    (Mut.recUpd (.flashDone "A" sampleProfile 1) (newEntry sampleItem .both))

/-- A profile whose `name` is the empty string (a value the core never
validates). -/
def emptyNameProfile : MergedProfile :=
  { sampleProfile with name := "" }

/-- A record with a present consolidated profile whose name is empty. -/
def cexCsvRec : ProcessedResult :=
  { id := "X", input := sampleItem,
    flash := initialRes .pending, pro := initialRes .pending,
    consolidated := some
      { output := some emptyNameProfile, logs := [], durationMs := 0, status := .completed },
    summary := none }

/-- A record holding only a fast-path result. -/
def flashOnlyRec : ProcessedResult :=
  { id := "F", input := sampleItem,
    flash := { output := some sampleProfile, logs := [], durationMs := 1,
               status := .completed, thinkingText := some "" },
    pro := initialRes .pending, consolidated := none, summary := none }

/-- A record whose effective Customer value (the source record name, as no
profile exists) contains a comma. -/
def commaRec : ProcessedResult :=
  { id := "C",
    input := { id := "C", customerRecord := { sampleRecord with name := "Doe, John" },
               chatTranscript := "", timestamp := 0 },
    flash := initialRes .pending, pro := initialRes .pending,
    consolidated := none, summary := none }

/-! ## Persistence collaborator (`JSON.stringify` / `JSON.parse` of
`{ queue, history }`)

The persisted byte string is modelled at the JSON-value level: `stringify`
of a plain object is an injective rendering of this tree (a key whose
value is `undefined` is omitted — optional fields encode as absent keys),
and `parse` recovers the same tree. -/

/-- JSON values. -/
inductive Json
  | null
  | bool (b : Bool)
  | num (q : Rat)
  | str (s : String)
  | arr (items : List Json)
  | obj (fields : List (String × Json))

/-- An optional record field: a key omitted by `JSON.stringify` when the
value is `undefined`. -/
def optField {α : Type} (k : String) (enc : α → Json) : Option α → List (String × Json)
  | none => []
  | some a => [(k, enc a)]

/-- String rendering of a status as persisted. -/
def Status.toText : Status → String
  | .pending => "pending"
  | .processing => "processing"
  | .completed => "completed"
  | .error => "error"

/-- Encoding of a `MergedProfile` (optional `reasoning_insight`). -/
def encProfile (p : MergedProfile) : Json :=
  .obj ([("customer_id", .str p.customer_id), ("name", .str p.name),
         ("email", .str p.email), ("phone", .str p.phone),
         ("current_tier", .str p.current_tier),
         ("latest_sentiment", .str p.latest_sentiment.toText),
         ("identified_intent", .str p.identified_intent),
         ("updates_applied", .arr (p.updates_applied.map Json.str)),
         ("confidence_score", .num p.confidence_score)]
    ++ optField "reasoning_insight" Json.str p.reasoning_insight)

/-- Encoding of a `CustomerRecord` (`phone` may be `null`). -/
def encCustomer (c : CustomerRecord) : Json :=
  .obj [("customer_id", .str c.customer_id), ("name", .str c.name),
        ("email", .str c.email),
        ("phone", match c.phone with | none => .null | some s => .str s),
        ("current_tier", .str c.current_tier), ("last_updated", .str c.last_updated)]

/-- Encoding of an `InputData`. -/
def encInput (i : InputData) : Json :=
  .obj [("id", .str i.id), ("customerRecord", encCustomer i.customerRecord),
        ("chatTranscript", .str i.chatTranscript), ("timestamp", .num (i.timestamp : Rat))]

/-- Encoding of a `ModelResolution` (`output` is `null` when absent, the
streamed-text field is an optional key). -/
def encResolution (m : ModelResolution) : Json :=
  .obj ([("output", match m.output with | none => .null | some p => encProfile p),
         ("logs", .arr (m.logs.map Json.str)),
         ("durationMs", .num m.durationMs),
         ("status", .str m.status.toText)]
    ++ optField "thinkingText" Json.str m.thinkingText)

/-- Encoding of a `ConsolidatedResolution`. -/
def encConsolidated (c : ConsolidatedResolution) : Json :=
  .obj [("output", match c.output with | none => .null | some p => encProfile p),
        ("logs", .arr (c.logs.map Json.str)),
        ("durationMs", .num c.durationMs),
        ("status", .str c.status.toText)]

/-- Encoding of a `ProcessedResult` (`consolidated` and `summary` are
optional keys). -/
def encResult (r : ProcessedResult) : Json :=
  .obj ([("id", .str r.id), ("input", encInput r.input),
         ("flash", encResolution r.flash), ("pro", encResolution r.pro)]
    ++ optField "consolidated" encConsolidated r.consolidated
    ++ optField "summary" Json.str r.summary)

/-- The persisted value under the storage key: `{ queue, history }`. -/
def encState (queue : List InputData) (history : List ProcessedResult) : Json :=
  .obj [("queue", .arr (queue.map encInput)),
        ("history", .arr (history.map encResult))]

/-- Object field lookup. -/
def getField (fields : List (String × Json)) (k : String) : Option Json :=
  (fields.find? fun kv => kv.1 = k).map Prod.snd

/-- Decoding a string value. -/
def decStr : Json → Option String
  | .str s => some s
  | _ => none

/-- Decoding a number. -/
def decNum : Json → Option Rat
  | .num q => some q
  | _ => none

/-- Decoding an integer timestamp. -/
def decInt : Json → Option Int
  | .num q => if q.den = 1 then some q.num else none
  | _ => none

/-- Decoding a sentiment string. -/
def decSentiment (j : Json) : Option Sentiment :=
  match decStr j with
  | some "Positive" => some .positive
  | some "Neutral" => some .neutral
  | some "Negative" => some .negative
  | _ => none

/-- Decoding a status string. -/
def decStatus (j : Json) : Option Status :=
  match decStr j with
  | some "pending" => some .pending
  | some "processing" => some .processing
  | some "completed" => some .completed
  | some "error" => some .error
  | _ => none

/-- Decoding a homogeneous array elementwise. -/
def decList {α : Type} (dec : Json → Option α) : List Json → Option (List α)
  | [] => some []
  | j :: js =>
    match dec j, decList dec js with
    | some a, some as => some (a :: as)
    | _, _ => none

/-- Decoding a list of strings. -/
def decStrs : Json → Option (List String)
  | .arr l => decList decStr l
  | _ => none

/-- Decoding an optional key: absent is `none`, present must decode. -/
def decOptField {α : Type} (fields : List (String × Json)) (k : String)
    (dec : Json → Option α) : Option (Option α) :=
  match getField fields k with
  | none => some none
  | some j => (dec j).map some

/-- Decoding a nullable value. -/
def decNullable {α : Type} (dec : Json → Option α) : Json → Option (Option α)
  | .null => some none
  | j => (dec j).map some

/-- Decoding a `MergedProfile`. -/
def decProfile : Json → Option MergedProfile
  | .obj fields => do
    let customer_id ← getField fields "customer_id" >>= decStr
    let name ← getField fields "name" >>= decStr
    let email ← getField fields "email" >>= decStr
    let phone ← getField fields "phone" >>= decStr
    let current_tier ← getField fields "current_tier" >>= decStr
    let latest_sentiment ← getField fields "latest_sentiment" >>= decSentiment
    let identified_intent ← getField fields "identified_intent" >>= decStr
    let updates_applied ← getField fields "updates_applied" >>= decStrs
    let confidence_score ← getField fields "confidence_score" >>= decNum
    let reasoning_insight ← decOptField fields "reasoning_insight" decStr
    pure { customer_id, name, email, phone, current_tier, latest_sentiment,
           identified_intent, updates_applied, confidence_score, reasoning_insight }
  | _ => none

/-- Decoding a `CustomerRecord`. -/
def decCustomer : Json → Option CustomerRecord
  | .obj fields => do
    let customer_id ← getField fields "customer_id" >>= decStr
    let name ← getField fields "name" >>= decStr
    let email ← getField fields "email" >>= decStr
    let phone ← getField fields "phone" >>= decNullable decStr
    let current_tier ← getField fields "current_tier" >>= decStr
    let last_updated ← getField fields "last_updated" >>= decStr
    pure { customer_id, name, email, phone, current_tier, last_updated }
  | _ => none

/-- Decoding an `InputData`. -/
def decInput : Json → Option InputData
  | .obj fields => do
    let id ← getField fields "id" >>= decStr
    let customerRecord ← getField fields "customerRecord" >>= decCustomer
    let chatTranscript ← getField fields "chatTranscript" >>= decStr
    let timestamp ← getField fields "timestamp" >>= decInt
    pure { id, customerRecord, chatTranscript, timestamp }
  | _ => none

/-- Decoding a `ModelResolution`. -/
def decResolution : Json → Option ModelResolution
  | .obj fields => do
    let output ← getField fields "output" >>= decNullable decProfile
    let logs ← getField fields "logs" >>= decStrs
    let durationMs ← getField fields "durationMs" >>= decNum
    let status ← getField fields "status" >>= decStatus
    let thinkingText ← decOptField fields "thinkingText" decStr
    pure { output, logs, durationMs, status, thinkingText }
  | _ => none

/-- Decoding a `ConsolidatedResolution`. -/
def decConsolidated : Json → Option ConsolidatedResolution
  | .obj fields => do
    let output ← getField fields "output" >>= decNullable decProfile
    let logs ← getField fields "logs" >>= decStrs
    let durationMs ← getField fields "durationMs" >>= decNum
    let status ← getField fields "status" >>= decStatus
    pure { output, logs, durationMs, status }
  | _ => none

/-- Decoding a `ProcessedResult`. -/
def decResult : Json → Option ProcessedResult
  | .obj fields => do
    let id ← getField fields "id" >>= decStr
    let input ← getField fields "input" >>= decInput
    let flash ← getField fields "flash" >>= decResolution
    let pro ← getField fields "pro" >>= decResolution
    let consolidated ← decOptField fields "consolidated" decConsolidated
    let summary ← decOptField fields "summary" decStr
    pure { id, input, flash, pro, consolidated, summary }
  | _ => none

/-- Decoding the persisted `{ queue, history }` value (the load effect's
destructuring). -/
def decState : Json → Option (List InputData × List ProcessedResult)
  | .obj fields =>
    match getField fields "queue", getField fields "history" with
    | some (.arr qs), some (.arr hs) =>
      match decList decInput qs, decList decResult hs with
      | some q, some h => some (q, h)
      | _, _ => none
    | _, _ => none
  | _ => none

/-! ## Basic facts about the gateway event streams -/

theorem streamUpdates_updates (acc : String) (cs : List String) :
    ∀ e ∈ (streamUpdates acc cs).1, e.isTerminal = false := by
  induction cs generalizing acc with
  | nil => simp [streamUpdates]
  | cons c cs ih =>
    intro e he
    by_cases hc : c.isEmpty
    · simp only [streamUpdates, if_pos hc] at he
      exact ih acc e he
    · simp only [streamUpdates, if_neg hc, List.mem_cons] at he
      rcases he with he | he
      · subst he; rfl
      · exact ih (acc ++ c) e he

theorem streamUpdates_countP (acc : String) (cs : List String) :
    ((streamUpdates acc cs).1.countP Ev.isTerminal) = 0 := by
  rw [List.countP_eq_zero]
  intro e he
  simpa using streamUpdates_updates acc cs e he

/-- The terminal callback count of a flash call is exactly one. -/
theorem mergeWithFlash_one_terminal (env : StreamEnv) :
    (mergeWithFlash env).countP Ev.isTerminal = 1 := by
  unfold mergeWithFlash
  by_cases hk : env.apiKey
  · simp only [hk, Bool.not_true, Bool.false_eq_true, if_false]
    cases hf : env.fault with
    | some m => simp [List.countP_append, streamUpdates_countP, Ev.isTerminal, List.countP_cons]
    | none =>
      cases hp : env.parse (cleanText (streamUpdates "" env.chunks).2) with
      | ok j => simp [List.countP_append, streamUpdates_countP, Ev.isTerminal, List.countP_cons]
      | error e => simp [List.countP_append, streamUpdates_countP, Ev.isTerminal, List.countP_cons]
  · simp only [Bool.not_eq_true] at hk
    simp [hk, Ev.isTerminal, List.countP_cons]

/-- The terminal callback count of a pro call is exactly one. -/
theorem mergeWithProStream_one_terminal (env : StreamEnv) :
    (mergeWithProStream env).countP Ev.isTerminal = 1 := by
  unfold mergeWithProStream
  by_cases hk : env.apiKey
  · simp only [hk, Bool.not_true, Bool.false_eq_true, if_false]
    cases hf : env.fault with
    | some m => simp [List.countP_append, streamUpdates_countP, Ev.isTerminal, List.countP_cons]
    | none =>
      cases hp : env.parse (cleanText (streamUpdates "" env.chunks).2) with
      | ok j => simp [List.countP_append, streamUpdates_countP, Ev.isTerminal, List.countP_cons]
      | error e => simp [List.countP_append, streamUpdates_countP, Ev.isTerminal, List.countP_cons]
  · simp only [Bool.not_eq_true] at hk
    simp [hk, Ev.isTerminal, List.countP_cons]

/-! ## Mutation component lemmas -/

theorem recUpd_id (m : Mut) (h : ProcessedResult) : (m.recUpd h).id = h.id := by
  cases m <;> simp [Mut.recUpd, retryResetRec]

theorem recUpd_input (m : Mut) (h : ProcessedResult) : (m.recUpd h).input = h.input := by
  cases m <;> simp [Mut.recUpd, retryResetRec]

theorem recUpd_flashCommit (m : Mut) (hm : m.isFlashCommit = true) (h : ProcessedResult) :
    m.recUpd h = { h with flash := m.flashPart h.flash } := by
  cases m <;> simp_all [Mut.isFlashCommit, Mut.recUpd, Mut.flashPart]

theorem recUpd_proCommit (m : Mut) (hm : m.isProCommit = true) (h : ProcessedResult) :
    m.recUpd h = { h with pro := m.proPart h.pro } := by
  cases m <;> simp_all [Mut.isProCommit, Mut.recUpd, Mut.proPart]

theorem recUpd_consolCommit (m : Mut) (hm : m.isConsolCommit = true) (h : ProcessedResult) :
    m.recUpd h = { h with consolidated := m.consolPart h.consolidated } := by
  cases m <;> simp_all [Mut.isConsolCommit, Mut.recUpd, Mut.consolPart]

theorem recUpd_summary_comm (m : Mut) (hm : m.isSummaryCommit = false)
    (h : ProcessedResult) (s : String) :
    m.recUpd { h with summary := some s } = { m.recUpd h with summary := some s } := by
  cases m <;> simp_all [Mut.isSummaryCommit, Mut.recUpd, retryResetRec, thinkingUpd,
    flashDoneUpd, proDoneUpd, failUpd]

theorem applyRec_nil (h : ProcessedResult) : applyRec h [] = h := rfl

theorem applyRec_cons (h : ProcessedResult) (m : Mut) (ms : List Mut) :
    applyRec h (m :: ms) = applyRec (m.recUpd h) ms := rfl

theorem applyRec_append (h : ProcessedResult) (l₁ l₂ : List Mut) :
    applyRec h (l₁ ++ l₂) = applyRec (applyRec h l₁) l₂ := by
  simp [applyRec, List.foldl_append]

theorem applyRec_id (h : ProcessedResult) (ms : List Mut) : (applyRec h ms).id = h.id := by
  induction ms generalizing h with
  | nil => rfl
  | cons m ms ih => rw [applyRec_cons, ih, recUpd_id]

theorem applyRec_input (h : ProcessedResult) (ms : List Mut) :
    (applyRec h ms).input = h.input := by
  induction ms generalizing h with
  | nil => rfl
  | cons m ms ih => rw [applyRec_cons, ih, recUpd_input]

theorem applyRec_flashCommits (ms : List Mut) (hms : ∀ m ∈ ms, m.isFlashCommit = true)
    (h : ProcessedResult) :
    applyRec h ms = { h with flash := applyFlashPart h.flash ms } := by
  induction ms generalizing h with
  | nil => rfl
  | cons m ms ih =>
    rw [applyRec_cons, recUpd_flashCommit m (hms m (by simp)),
      ih (fun m hm => hms m (by simp [hm]))]
    rfl

theorem applyRec_proCommits (ms : List Mut) (hms : ∀ m ∈ ms, m.isProCommit = true)
    (h : ProcessedResult) :
    applyRec h ms = { h with pro := applyProPart h.pro ms } := by
  induction ms generalizing h with
  | nil => rfl
  | cons m ms ih =>
    rw [applyRec_cons, recUpd_proCommit m (hms m (by simp)),
      ih (fun m hm => hms m (by simp [hm]))]
    rfl

theorem applyRec_consolCommits (ms : List Mut) (hms : ∀ m ∈ ms, m.isConsolCommit = true)
    (h : ProcessedResult) :
    applyRec h ms =
      { h with consolidated := ms.foldl (fun c m => m.consolPart c) h.consolidated } := by
  induction ms generalizing h with
  | nil => rfl
  | cons m ms ih =>
    rw [applyRec_cons, recUpd_consolCommit m (hms m (by simp)),
      ih (fun m hm => hms m (by simp [hm]))]
    rfl

theorem applyRec_summary_push (ms : List Mut) (hms : ∀ m ∈ ms, m.isSummaryCommit = false)
    (h : ProcessedResult) (s : String) :
    applyRec { h with summary := some s } ms = { applyRec h ms with summary := some s } := by
  induction ms generalizing h with
  | nil => rfl
  | cons m ms ih =>
    rw [applyRec_cons, recUpd_summary_comm m (hms m (by simp)),
      ih (fun m hm => hms m (by simp [hm])), applyRec_cons]

/-! ## The orchestrator trace, componentwise -/

theorem applyRec_merge2 (bs : List Bool) (fm pm : List Mut)
    (hf : ∀ m ∈ fm, m.isFlashCommit = true) (hp : ∀ m ∈ pm, m.isProCommit = true)
    (h : ProcessedResult) :
    applyRec h (merge2 bs fm pm) =
      { h with flash := applyFlashPart h.flash fm, pro := applyProPart h.pro pm } := by
  induction bs generalizing fm pm h with
  | nil =>
    rw [merge2, applyRec_append, applyRec_flashCommits fm hf, applyRec_proCommits pm hp]
  | cons b bs ih =>
    cases b
    · cases pm with
      | nil =>
        show applyRec h fm = _
        rw [applyRec_flashCommits fm hf]
        rfl
      | cons y ys =>
        show applyRec h (y :: merge2 bs fm ys) = _
        rw [applyRec_cons, recUpd_proCommit y (hp y (by simp)),
          ih fm ys hf (fun m hm => hp m (by simp [hm]))]
        rfl
    · cases fm with
      | nil =>
        show applyRec h pm = _
        rw [applyRec_proCommits pm hp]
        rfl
      | cons x xs =>
        show applyRec h (x :: merge2 bs xs pm) = _
        rw [applyRec_cons, recUpd_flashCommit x (hf x (by simp)),
          ih xs pm (fun m hm => hf m (by simp [hm])) hp]
        rfl

theorem mem_merge2 {α : Type} (bs : List Bool) (xs ys : List α) (m : α)
    (hm : m ∈ merge2 bs xs ys) : m ∈ xs ∨ m ∈ ys := by
  induction bs generalizing xs ys with
  | nil => exact (List.mem_append.mp hm)
  | cons b bs ih =>
    cases b
    · cases ys with
      | nil => exact Or.inl hm
      | cons y ys =>
        rcases List.mem_cons.mp hm with rfl | hm'
        · exact Or.inr (by simp)
        · rcases ih xs ys hm' with h1 | h2
          · exact Or.inl h1
          · exact Or.inr (by simp [h2])
    · cases xs with
      | nil => exact Or.inr hm
      | cons x xs =>
        rcases List.mem_cons.mp hm with rfl | hm'
        · exact Or.inl (by simp)
        · rcases ih xs ys hm' with h1 | h2
          · exact Or.inl (by simp [h1])
          · exact Or.inr h2

theorem mem_insertAt {α : Type} (n : Nat) (a : α) (l : List α) (m : α)
    (hm : m ∈ insertAt n a l) : m = a ∨ m ∈ l := by
  induction l generalizing n with
  | nil =>
    cases n <;> simpa [insertAt] using hm
  | cons x xs ih =>
    cases n with
    | zero =>
      rcases List.mem_cons.mp hm with rfl | hm' <;> simp_all
    | succ n =>
      rcases List.mem_cons.mp hm with rfl | hm'
      · simp
      · rcases ih n hm' with rfl | h2 <;> simp_all

theorem flashMuts_isFlash (item : InputData) (mode : Mode) (env : ItemEnv) :
    ∀ m ∈ flashMuts item mode env, m.isFlashCommit = true := by
  intro m hm
  unfold flashMuts at hm
  split at hm
  · rcases List.mem_map.mp hm with ⟨e, _, rfl⟩
    cases e <;> rfl
  · simp at hm

theorem proMuts_isPro (item : InputData) (mode : Mode) (env : ItemEnv) :
    ∀ m ∈ proMuts item mode env, m.isProCommit = true := by
  intro m hm
  unfold proMuts at hm
  split at hm
  · rcases List.mem_map.mp hm with ⟨e, _, rfl⟩
    cases e <;> rfl
  · simp at hm

theorem consolMuts_isConsol (item : InputData) (mode : Mode) (env : ItemEnv) :
    ∀ m ∈ consolMuts item mode env, m.isConsolCommit = true := by
  intro m hm
  cases mode with
  | flash => simp [consolMuts] at hm
  | pro => simp [consolMuts] at hm
  | both =>
    cases hf : flashRes .both env with
    | none => simp [consolMuts, hf] at hm
    | some f =>
      cases hp : proRes .both env with
      | none => simp [consolMuts, hf, hp] at hm
      | some p =>
        cases ha : env.arbiter f p <;> simp [consolMuts, hf, hp, ha] at hm <;>
          rcases hm with rfl | rfl <;> rfl

theorem flashMuts_key (item : InputData) (mode : Mode) (env : ItemEnv) :
    ∀ m ∈ flashMuts item mode env, m.key = some item.id := by
  intro m hm
  unfold flashMuts at hm
  split at hm
  · rcases List.mem_map.mp hm with ⟨e, _, rfl⟩
    cases e <;> rfl
  · simp at hm

theorem proMuts_key (item : InputData) (mode : Mode) (env : ItemEnv) :
    ∀ m ∈ proMuts item mode env, m.key = some item.id := by
  intro m hm
  unfold proMuts at hm
  split at hm
  · rcases List.mem_map.mp hm with ⟨e, _, rfl⟩
    cases e <;> rfl
  · simp at hm

theorem consolMuts_key (item : InputData) (mode : Mode) (env : ItemEnv) :
    ∀ m ∈ consolMuts item mode env, m.key = some item.id := by
  intro m hm
  cases mode with
  | flash => simp [consolMuts] at hm
  | pro => simp [consolMuts] at hm
  | both =>
    cases hf : flashRes .both env with
    | none => simp [consolMuts, hf] at hm
    | some f =>
      cases hp : proRes .both env with
      | none => simp [consolMuts, hf, hp] at hm
      | some p =>
        cases ha : env.arbiter f p <;> simp [consolMuts, hf, hp, ha] at hm <;>
          rcases hm with rfl | rfl <;> rfl

theorem flashCommit_not_summary (m : Mut) (h : m.isFlashCommit = true) :
    m.isSummaryCommit = false := by
  cases m <;> simp_all [Mut.isFlashCommit, Mut.isSummaryCommit]

theorem proCommit_not_summary (m : Mut) (h : m.isProCommit = true) :
    m.isSummaryCommit = false := by
  cases m <;> simp_all [Mut.isProCommit, Mut.isSummaryCommit]

theorem consolCommit_not_summary (m : Mut) (h : m.isConsolCommit = true) :
    m.isSummaryCommit = false := by
  cases m <;> simp_all [Mut.isConsolCommit, Mut.isSummaryCommit]

theorem applyRec_insertAt_summary (n : Nat) (i s : String) (l : List Mut)
    (hl : ∀ m ∈ l, m.isSummaryCommit = false) (h : ProcessedResult) :
    applyRec h (insertAt n (.setSummary i s) l) = { applyRec h l with summary := some s } := by
  induction l generalizing n h with
  | nil => cases n <;> rfl
  | cons m ms ih =>
    cases n with
    | zero =>
      show applyRec h (.setSummary i s :: m :: ms) = _
      rw [applyRec_cons]
      exact applyRec_summary_push (m :: ms) hl _ s
    | succ n =>
      show applyRec h (m :: insertAt n (.setSummary i s) ms) = _
      rw [applyRec_cons, ih n (fun x hx => hl x (List.mem_cons_of_mem m hx)), applyRec_cons]

theorem applyRec_consolMuts (item : InputData) (mode : Mode) (env : ItemEnv)
    (h : ProcessedResult) :
    applyRec h (consolMuts item mode env) =
      { h with consolidated := consolAfter mode env h.consolidated } := by
  cases mode with
  | flash => rfl
  | pro => rfl
  | both =>
    cases hf : flashRes .both env with
    | none => simp [consolMuts, consolAfter, hf, applyRec]
    | some f =>
      cases hp : proRes .both env with
      | none => simp [consolMuts, consolAfter, hf, hp, applyRec]
      | some p =>
        cases ha : env.arbiter f p <;>
          simp [consolMuts, consolAfter, hf, hp, ha, applyRec, Mut.recUpd]

/-- The record-level effect of one full `executeItemProcessing` run:
flash and pro path states are folded by their own commits, consolidation
updates `consolidated` per `consolAfter`, and the summary field is set to
the summarize result; `id` and `input` are untouched. -/
theorem applyRec_executeTrace (item : InputData) (mode : Mode) (env : ItemEnv)
    (h : ProcessedResult) :
    applyRec h (executeTrace item mode env) =
      { h with
        flash := applyFlashPart h.flash (flashMuts item mode env)
        pro := applyProPart h.pro (proMuts item mode env)
        consolidated := consolAfter mode env h.consolidated
        summary := some (summarizeTranscript env.summaryOutcome) } := by
  have hbody : ∀ m ∈ merge2 env.ileave (flashMuts item mode env) (proMuts item mode env)
      ++ consolMuts item mode env, m.isSummaryCommit = false := by
    intro m hm
    rcases List.mem_append.mp hm with hm' | hm'
    · rcases mem_merge2 _ _ _ m hm' with h1 | h2
      · exact flashCommit_not_summary m (flashMuts_isFlash item mode env m h1)
      · exact proCommit_not_summary m (proMuts_isPro item mode env m h2)
    · exact consolCommit_not_summary m (consolMuts_isConsol item mode env m hm')
  unfold executeTrace
  rw [applyRec_insertAt_summary _ _ _ _ hbody, applyRec_append,
    applyRec_merge2 env.ileave _ _ (flashMuts_isFlash item mode env)
      (proMuts_isPro item mode env),
    applyRec_consolMuts item mode env]

/-! ## Store-level application of keyed commits -/

theorem applyMut_keyed (m : Mut) (i : String) (hk : m.key = some i)
    (hist : List ProcessedResult) : applyMut hist m = updAt i m.recUpd hist := by
  cases m <;> simp_all [Mut.key, applyMut]

theorem updAt_updAt (i : String) (f g : ProcessedResult → ProcessedResult)
    (hg : ∀ h, (g h).id = h.id) (hist : List ProcessedResult) :
    updAt i f (updAt i g hist) = updAt i (fun h => f (g h)) hist := by
  unfold updAt
  rw [List.map_map]
  apply List.map_congr_left
  intro h _
  by_cases hi : h.id = i
  · simp [Function.comp, hi, hg]
  · simp [Function.comp, hi]

theorem applyMuts_keyed (ms : List Mut) (i : String) (hk : ∀ m ∈ ms, m.key = some i)
    (hist : List ProcessedResult) :
    applyMuts hist ms = updAt i (fun h => applyRec h ms) hist := by
  induction ms generalizing hist with
  | nil => simp [applyMuts, updAt, applyRec]
  | cons m ms ih =>
    show applyMuts (applyMut hist m) ms = _
    rw [ih (fun x hx => hk x (List.mem_cons_of_mem m hx)),
      applyMut_keyed m i (hk m (by simp)), updAt_updAt i _ _ (recUpd_id m)]
    rfl

theorem executeTrace_key (item : InputData) (mode : Mode) (env : ItemEnv) :
    ∀ m ∈ executeTrace item mode env, m.key = some item.id := by
  intro m hm
  unfold executeTrace at hm
  rcases mem_insertAt _ _ _ m hm with rfl | hm'
  · rfl
  · rcases List.mem_append.mp hm' with h1 | h2
    · rcases mem_merge2 _ _ _ m h1 with hx | hx
      · exact flashMuts_key item mode env m hx
      · exact proMuts_key item mode env m hx
    · exact consolMuts_key item mode env m h2

/-- One `executeItemProcessing` run updates exactly the records whose id
is the processed item's id, by its record-level trace effect. -/
theorem execHist_eq (item : InputData) (mode : Mode) (env : ItemEnv)
    (hist : List ProcessedResult) :
    execHist item mode env hist =
      updAt item.id (fun h => applyRec h (executeTrace item mode env)) hist :=
  applyMuts_keyed _ item.id (executeTrace_key item mode env) hist

theorem updAt_length (i : String) (f : ProcessedResult → ProcessedResult)
    (hist : List ProcessedResult) : (updAt i f hist).length = hist.length := by
  simp [updAt]

theorem updAt_map_id (i : String) (f : ProcessedResult → ProcessedResult)
    (hf : ∀ h, (f h).id = h.id) (hist : List ProcessedResult) :
    (updAt i f hist).map ProcessedResult.id = hist.map ProcessedResult.id := by
  unfold updAt
  rw [List.map_map]
  apply List.map_congr_left
  intro h _
  by_cases hi : h.id = i
  · simp [Function.comp, hi, hf]
  · simp [Function.comp, hi]

/-! ## Terminal shape of the streaming calls -/

theorem mergeWithFlash_shape (env : StreamEnv) :
    ∃ us, (∀ e ∈ us, e.isTerminal = false) ∧
      ((∃ p, mergeWithFlash env = us ++ [.done p]) ∨
       (∃ m, mergeWithFlash env = us ++ [.fail m])) := by
  unfold mergeWithFlash
  by_cases hk : env.apiKey
  · refine ⟨(streamUpdates "" env.chunks).1, streamUpdates_updates "" env.chunks, ?_⟩
    cases hf : env.fault with
    | some m => exact Or.inr ⟨"API Error: " ++ m, by simp [hk, hf]⟩
    | none =>
      cases hp : env.parse (cleanText (streamUpdates "" env.chunks).2) with
      | ok j => exact Or.inl ⟨j, by simp [hk, hf, hp]⟩
      | error e =>
        exact Or.inr ⟨"Parse Error: Output was not valid JSON. " ++ e, by simp [hk, hf, hp]⟩
  · simp only [Bool.not_eq_true] at hk
    exact ⟨[], by simp,
      Or.inr ⟨"API Error: API Key not found. Please ensure your environment is configured.",
        by simp [hk]⟩⟩

theorem mergeWithProStream_shape (env : StreamEnv) :
    ∃ us, (∀ e ∈ us, e.isTerminal = false) ∧
      ((∃ p, mergeWithProStream env = us ++ [.done p]) ∨
       (∃ m, mergeWithProStream env = us ++ [.fail m])) := by
  unfold mergeWithProStream
  by_cases hk : env.apiKey
  · refine ⟨(streamUpdates "" env.chunks).1, streamUpdates_updates "" env.chunks, ?_⟩
    cases hf : env.fault with
    | some m => exact Or.inr ⟨"Pro Engine Fault: " ++ m, by simp [hk, hf]⟩
    | none =>
      cases hp : env.parse (cleanText (streamUpdates "" env.chunks).2) with
      | ok j => exact Or.inl ⟨j, by simp [hk, hf, hp]⟩
      | error e =>
        exact Or.inr ⟨"Structure Error: Deep reasoning failed to produce expected schema. " ++ e,
          by simp [hk, hf, hp]⟩
  · simp only [Bool.not_eq_true] at hk
    exact ⟨[], by simp,
      Or.inr ⟨"Pro Engine Fault: API Key not found. Please ensure your environment is configured.",
        by simp [hk]⟩⟩

theorem lastDone_updates (us : List Ev) (hus : ∀ e ∈ us, e.isTerminal = false) :
    lastDone us = none := by
  have : ∀ acc : Option MergedProfile,
      us.foldl (fun acc e => match e with | .done p => some p | _ => acc) acc = acc := by
    induction us with
    | nil => intro acc; rfl
    | cons e es ih =>
      intro acc
      cases e with
      | update t => exact ih (fun x hx => hus x (List.mem_cons_of_mem _ hx)) acc
      | done p => exact absurd (hus (.done p) (by simp)) (by simp [Ev.isTerminal])
      | fail m => exact ih (fun x hx => hus x (List.mem_cons_of_mem _ hx)) acc
  exact this none

theorem lastDone_append_done (us : List Ev) (p : MergedProfile) :
    lastDone (us ++ [.done p]) = some p := by
  simp [lastDone, List.foldl_append]

theorem lastDone_append_fail (us : List Ev) (m : String)
    (hus : ∀ e ∈ us, e.isTerminal = false) :
    lastDone (us ++ [.fail m]) = none := by
  have := lastDone_updates us hus
  simp only [lastDone, List.foldl_append] at *
  exact this

/-! ## Final path state after one orchestrator run -/

theorem applyFlashPart_updates (x : ModelResolution) (us : List Ev)
    (hus : ∀ e ∈ us, e.isTerminal = false) (i : String) (d : Rat) :
    applyFlashPart x (us.map (flashEvMut i d)) =
      { x with thinkingText := (applyFlashPart x (us.map (flashEvMut i d))).thinkingText } := by
  induction us generalizing x with
  | nil => rfl
  | cons e es ih =>
    cases e with
    | update t =>
      show applyFlashPart (thinkingUpd t x) (es.map (flashEvMut i d)) = _
      rw [ih (thinkingUpd t x) (fun y hy => hus y (List.mem_cons_of_mem _ hy))]
      rfl
    | done p => exact absurd (hus (.done p) (by simp)) (by simp [Ev.isTerminal])
    | fail m => exact absurd (hus (.fail m) (by simp)) (by simp [Ev.isTerminal])

theorem applyProPart_updates (x : ModelResolution) (us : List Ev)
    (hus : ∀ e ∈ us, e.isTerminal = false) (i : String) (d : Rat) :
    applyProPart x (us.map (proEvMut i d)) =
      { x with thinkingText := (applyProPart x (us.map (proEvMut i d))).thinkingText } := by
  induction us generalizing x with
  | nil => rfl
  | cons e es ih =>
    cases e with
    | update t =>
      show applyProPart (thinkingUpd t x) (es.map (proEvMut i d)) = _
      rw [ih (thinkingUpd t x) (fun y hy => hus y (List.mem_cons_of_mem _ hy))]
      rfl
    | done p => exact absurd (hus (.done p) (by simp)) (by simp [Ev.isTerminal])
    | fail m => exact absurd (hus (.fail m) (by simp)) (by simp [Ev.isTerminal])

theorem applyFlashPart_append (x : ModelResolution) (l₁ l₂ : List Mut) :
    applyFlashPart x (l₁ ++ l₂) = applyFlashPart (applyFlashPart x l₁) l₂ := by
  simp [applyFlashPart, List.foldl_append]

theorem applyProPart_append (x : ModelResolution) (l₁ l₂ : List Mut) :
    applyProPart x (l₁ ++ l₂) = applyProPart (applyProPart x l₁) l₂ := by
  simp [applyProPart, List.foldl_append]

/-- After a flash branch settles, the final flash path status is
`completed` exactly when `flashRes` holds a profile, `error` otherwise. -/
theorem flashMuts_final (item : InputData) (mode : Mode) (env : ItemEnv)
    (hm : mode.usesFlash = true) (x : ModelResolution) :
    ((flashRes mode env).isSome = true →
      (applyFlashPart x (flashMuts item mode env)).status = .completed) ∧
    (flashRes mode env = none →
      (applyFlashPart x (flashMuts item mode env)).status = .error) := by
  obtain ⟨us, hus, hcase⟩ := mergeWithFlash_shape env.flash
  have hres : flashRes mode env = lastDone (mergeWithFlash env.flash) := by
    unfold flashRes; rw [if_pos hm]
  have hmuts : flashMuts item mode env =
      (mergeWithFlash env.flash).map (flashEvMut item.id env.flashDur) := by
    unfold flashMuts; rw [if_pos hm]
  cases hcase with
  | inl h =>
    obtain ⟨p, hp⟩ := h
    have h1 : (applyFlashPart x (flashMuts item mode env)).status = .completed := by
      rw [hmuts, hp, List.map_append, applyFlashPart_append]
      rfl
    refine ⟨fun _ => h1, fun h0 => ?_⟩
    rw [hres, hp, lastDone_append_done] at h0
    exact absurd h0 (by simp)
  | inr h =>
    obtain ⟨m, hp⟩ := h
    have h1 : (applyFlashPart x (flashMuts item mode env)).status = .error := by
      rw [hmuts, hp, List.map_append, applyFlashPart_append]
      rfl
    refine ⟨fun hs => ?_, fun _ => h1⟩
    rw [hres, hp, lastDone_append_fail us m hus] at hs
    exact absurd hs (by simp)

/-- Pro-branch analogue of `flashMuts_final`. -/
theorem proMuts_final (item : InputData) (mode : Mode) (env : ItemEnv)
    (hm : mode.usesPro = true) (x : ModelResolution) :
    ((proRes mode env).isSome = true →
      (applyProPart x (proMuts item mode env)).status = .completed) ∧
    (proRes mode env = none →
      (applyProPart x (proMuts item mode env)).status = .error) := by
  obtain ⟨us, hus, hcase⟩ := mergeWithProStream_shape env.pro
  have hres : proRes mode env = lastDone (mergeWithProStream env.pro) := by
    unfold proRes; rw [if_pos hm]
  have hmuts : proMuts item mode env =
      (mergeWithProStream env.pro).map (proEvMut item.id env.proDur) := by
    unfold proMuts; rw [if_pos hm]
  cases hcase with
  | inl h =>
    obtain ⟨p, hp⟩ := h
    have h1 : (applyProPart x (proMuts item mode env)).status = .completed := by
      rw [hmuts, hp, List.map_append, applyProPart_append]
      rfl
    refine ⟨fun _ => h1, fun h0 => ?_⟩
    rw [hres, hp, lastDone_append_done] at h0
    exact absurd h0 (by simp)
  | inr h =>
    obtain ⟨m, hp⟩ := h
    have h1 : (applyProPart x (proMuts item mode env)).status = .error := by
      rw [hmuts, hp, List.map_append, applyProPart_append]
      rfl
    refine ⟨fun hs => ?_, fun _ => h1⟩
    rw [hres, hp, lastDone_append_fail us m hus] at hs
    exact absurd hs (by simp)

/-! ## Counting consolidation attempts -/

theorem countP_merge2 {α : Type} (p : α → Bool) (bs : List Bool) (xs ys : List α) :
    (merge2 bs xs ys).countP p = xs.countP p + ys.countP p := by
  induction bs generalizing xs ys with
  | nil => simp [merge2, List.countP_append]
  | cons b bs ih =>
    cases b
    · cases ys with
      | nil => simp [merge2]
      | cons y ys =>
        show (y :: merge2 bs xs ys).countP p = _
        simp only [List.countP_cons, ih]
        omega
    · cases xs with
      | nil => simp [merge2]
      | cons x xs =>
        show (x :: merge2 bs xs ys).countP p = _
        simp only [List.countP_cons, ih]
        omega

theorem countP_insertAt {α : Type} (p : α → Bool) (n : Nat) (a : α) (l : List α) :
    (insertAt n a l).countP p = l.countP p + (if p a then 1 else 0) := by
  induction l generalizing n with
  | nil => cases n <;> simp [insertAt, List.countP_cons]
  | cons x xs ih =>
    cases n with
    | zero =>
      show ((a :: x :: xs).countP p) = _
      simp only [List.countP_cons]
    | succ n =>
      show ((x :: insertAt n a xs).countP p) = _
      simp only [List.countP_cons, ih]
      omega

theorem flashMuts_countInit (item : InputData) (mode : Mode) (env : ItemEnv) :
    (flashMuts item mode env).countP (fun m => m.isConsolInit) = 0 := by
  rw [List.countP_eq_zero]
  intro m hm
  have := flashMuts_isFlash item mode env m hm
  cases m <;> simp_all [Mut.isFlashCommit, Mut.isConsolInit]

theorem proMuts_countInit (item : InputData) (mode : Mode) (env : ItemEnv) :
    (proMuts item mode env).countP (fun m => m.isConsolInit) = 0 := by
  rw [List.countP_eq_zero]
  intro m hm
  have := proMuts_isPro item mode env m hm
  cases m <;> simp_all [Mut.isProCommit, Mut.isConsolInit]

/-- Only the consolidation stage starts attempts. -/
theorem consolAttempts_eq (item : InputData) (mode : Mode) (env : ItemEnv) :
    consolAttempts item mode env =
      (consolMuts item mode env).countP (fun m => m.isConsolInit) := by
  unfold consolAttempts executeTrace
  rw [countP_insertAt, List.countP_append, countP_merge2, flashMuts_countInit,
    proMuts_countInit]
  simp [Mut.isConsolInit]

end IRLab

open IRLab

/-- C6: for every call to `mergeWithFlash` and every call to
`mergeWithProStream` (callbacks assumed pure, which the event-list
embedding enforces), exactly one of the terminal callbacks
`onComplete`/`onError` is invoked, exactly once; the embedded call is a
total function, so it never raises to its caller. -/
theorem C6_exactly_one_terminal_callback :
    ∀ env : IRLab.StreamEnv,
      (IRLab.mergeWithFlash env).countP IRLab.Ev.isTerminal = 1 ∧
      (IRLab.mergeWithProStream env).countP IRLab.Ev.isTerminal = 1 :=
  fun env => ⟨IRLab.mergeWithFlash_one_terminal env, IRLab.mergeWithProStream_one_terminal env⟩

/-- C1: for every WorkItem processed with mode `Both` on a record whose
consolidated field is absent: a consolidation attempt is made iff both
the fast and the deep path reached `Completed`; at most one attempt
occurs, and when it occurs the final consolidated resolution is terminal
(`completed` or `error`); when either path ended `Failed`, no attempt is
made and `consolidated` stays absent. -/
theorem C1_consolidation_iff_both_paths_completed
    (item : InputData) (env : ItemEnv) (r : ProcessedResult)
    (hr : r.consolidated = none) :
    (consolAttempts item .both env = 0 ∨ consolAttempts item .both env = 1) ∧
    (consolAttempts item .both env = 1 ↔
      ((applyRec r (executeTrace item .both env)).flash.status = .completed ∧
       (applyRec r (executeTrace item .both env)).pro.status = .completed)) ∧
    (consolAttempts item .both env = 1 →
      ∃ c, (applyRec r (executeTrace item .both env)).consolidated = some c ∧
        (c.status = .completed ∨ c.status = .error)) ∧
    (((applyRec r (executeTrace item .both env)).flash.status = .error ∨
      (applyRec r (executeTrace item .both env)).pro.status = .error) →
      consolAttempts item .both env = 0 ∧
      (applyRec r (executeTrace item .both env)).consolidated = none) := by
  have hfin := applyRec_executeTrace item .both env r
  have hF := flashMuts_final item .both env rfl r.flash
  have hP := proMuts_final item .both env rfl r.pro
  have hflash : (applyRec r (executeTrace item .both env)).flash =
      applyFlashPart r.flash (flashMuts item .both env) := by rw [hfin]
  have hpro : (applyRec r (executeTrace item .both env)).pro =
      applyProPart r.pro (proMuts item .both env) := by rw [hfin]
  have hcons : (applyRec r (executeTrace item .both env)).consolidated =
      consolAfter .both env r.consolidated := by rw [hfin]
  rw [consolAttempts_eq]
  cases hFr : flashRes .both env with
  | none =>
    have hstatF : (applyRec r (executeTrace item .both env)).flash.status = .error := by
      rw [hflash]; exact hF.2 hFr
    have hcnt : (consolMuts item .both env).countP (fun m => m.isConsolInit) = 0 := by
      simp [consolMuts, hFr]
    refine ⟨Or.inl hcnt, ⟨?_, ?_⟩, ?_, ?_⟩
    · intro h1; rw [hcnt] at h1; exact absurd h1 (by decide)
    · intro hc
      rw [hstatF] at hc
      exact absurd hc.1 (by decide)
    · intro h1; rw [hcnt] at h1; exact absurd h1 (by decide)
    · intro _
      refine ⟨hcnt, ?_⟩
      rw [hcons, hr]
      simp [consolAfter, hFr]
  | some f =>
    cases hPr : proRes .both env with
    | none =>
      have hstatP : (applyRec r (executeTrace item .both env)).pro.status = .error := by
        rw [hpro]; exact hP.2 hPr
      have hcnt : (consolMuts item .both env).countP (fun m => m.isConsolInit) = 0 := by
        simp [consolMuts, hFr, hPr]
      refine ⟨Or.inl hcnt, ⟨?_, ?_⟩, ?_, ?_⟩
      · intro h1; rw [hcnt] at h1; exact absurd h1 (by decide)
      · intro hc
        rw [hstatP] at hc
        exact absurd hc.2 (by decide)
      · intro h1; rw [hcnt] at h1; exact absurd h1 (by decide)
      · intro _
        refine ⟨hcnt, ?_⟩
        rw [hcons, hr]
        simp [consolAfter, hFr, hPr]
    | some p =>
      have hstatF : (applyRec r (executeTrace item .both env)).flash.status = .completed := by
        rw [hflash]; exact hF.1 (by simp [hFr])
      have hstatP : (applyRec r (executeTrace item .both env)).pro.status = .completed := by
        rw [hpro]; exact hP.1 (by simp [hPr])
      have hcnt : (consolMuts item .both env).countP (fun m => m.isConsolInit) = 1 := by
        cases ha : env.arbiter f p <;>
          simp [consolMuts, hFr, hPr, ha, List.countP_cons, Mut.isConsolInit]
      refine ⟨Or.inr hcnt, ⟨fun _ => ⟨hstatF, hstatP⟩, fun _ => hcnt⟩, ?_, ?_⟩
      · intro _
        cases ha : env.arbiter f p with
        | ok j =>
          refine ⟨consolDoneRes j env.consolDur, ?_, Or.inl rfl⟩
          rw [hcons]
          simp [consolAfter, hFr, hPr, ha]
        | error m =>
          refine ⟨consolFailRes m, ?_, Or.inr rfl⟩
          rw [hcons]
          simp [consolAfter, hFr, hPr, ha]
      · intro hc
        rcases hc with hc | hc
        · rw [hstatF] at hc; exact absurd hc (by decide)
        · rw [hstatP] at hc; exact absurd hc (by decide)

/-- Witness for C1: a concrete run with an absent consolidated field. -/
theorem C1_consolidation_iff_both_paths_completed_witness :
    (newEntry sampleItem .both).consolidated = none ∧
    (consolAttempts sampleItem .both okEnv = 0 ∨ consolAttempts sampleItem .both okEnv = 1) :=
  ⟨rfl, (C1_consolidation_iff_both_paths_completed sampleItem okEnv
    (newEntry sampleItem .both) rfl).1⟩

/-! Scheduler lemmas -/

theorem drain_map_id (m0 : Mode) (envF : InputData → ItemEnv) (q : List InputData)
    (hist : List ProcessedResult) :
    (drain m0 envF q hist).map ProcessedResult.id =
      hist.map ProcessedResult.id ++ q.map InputData.id := by
  induction q generalizing hist with
  | nil => simp [drain]
  | cons i rest ih =>
    rw [drain, ih, execHist_eq, updAt_map_id _ _ (fun h => applyRec_id h _)]
    simp [newEntry]

theorem drainTrace_appendIds (q : List InputData) :
    (drainTrace q).filterMap SchedEv.appendId = q.map InputData.id := by
  induction q with
  | nil => rfl
  | cons i rest ih =>
    cases rest with
    | nil => simp [drainTrace, SchedEv.appendId]
    | cons j rest' =>
      rw [drainTrace]
      simp only [List.filterMap_cons, SchedEv.appendId, List.map_cons]
      rw [ih]
      simp

theorem drainTrace_startIds (q : List InputData) :
    (drainTrace q).filterMap SchedEv.startId = q.map InputData.id := by
  induction q with
  | nil => rfl
  | cons i rest ih =>
    cases rest with
    | nil => simp [drainTrace, SchedEv.startId]
    | cons j rest' =>
      rw [drainTrace]
      simp only [List.filterMap_cons, SchedEv.startId, List.map_cons]
      rw [ih]
      simp

theorem drainTrace_prefix_counts (q : List InputData) :
    ∀ pre suf : List SchedEv, drainTrace q = pre ++ suf →
      pre.countP SchedEv.isStart ≤ pre.countP SchedEv.isEnd + 1 ∧
      pre.countP SchedEv.isStart ≤ pre.countP SchedEv.isAppend := by
  induction q with
  | nil =>
    intro pre suf h
    rw [drainTrace] at h
    have hpre : pre = [] := by
      cases pre with
      | nil => rfl
      | cons x xs => simp at h
    subst hpre
    simp
  | cons i rest ih =>
    cases rest with
    | nil =>
      intro pre suf h
      rw [drainTrace] at h
      rcases pre with _ | ⟨e1, pre⟩
      · simp
      rcases pre with _ | ⟨e2, pre⟩
      · simp only [List.cons_append, List.nil_append, List.cons.injEq] at h
        obtain ⟨rfl, -⟩ := h
        simp [List.countP_cons, SchedEv.isStart, SchedEv.isEnd, SchedEv.isAppend]
      rcases pre with _ | ⟨e3, pre⟩
      · simp only [List.cons_append, List.nil_append, List.cons.injEq] at h
        obtain ⟨rfl, rfl, -⟩ := h
        simp [List.countP_cons, SchedEv.isStart, SchedEv.isEnd, SchedEv.isAppend]
      rcases pre with _ | ⟨e4, pre⟩
      · simp only [List.cons_append, List.nil_append, List.cons.injEq] at h
        obtain ⟨rfl, rfl, rfl, -⟩ := h
        simp [List.countP_cons, SchedEv.isStart, SchedEv.isEnd, SchedEv.isAppend]
      · exfalso
        simp only [List.cons_append, List.cons.injEq] at h
        exact absurd h.2.2.2 (by simp)
    | cons j rest' =>
      intro pre suf h
      rw [drainTrace] at h
      rcases pre with _ | ⟨e1, pre⟩
      · simp
      rcases pre with _ | ⟨e2, pre⟩
      · simp only [List.cons_append, List.nil_append, List.cons.injEq] at h
        obtain ⟨rfl, -⟩ := h
        simp [List.countP_cons, SchedEv.isStart, SchedEv.isEnd, SchedEv.isAppend]
      rcases pre with _ | ⟨e3, pre⟩
      · simp only [List.cons_append, List.nil_append, List.cons.injEq] at h
        obtain ⟨rfl, rfl, -⟩ := h
        simp [List.countP_cons, SchedEv.isStart, SchedEv.isEnd, SchedEv.isAppend]
      rcases pre with _ | ⟨e4, pre⟩
      · simp only [List.cons_append, List.nil_append, List.cons.injEq] at h
        obtain ⟨rfl, rfl, rfl, -⟩ := h
        simp [List.countP_cons, SchedEv.isStart, SchedEv.isEnd, SchedEv.isAppend]
      rcases pre with _ | ⟨e5, pre⟩
      · simp only [List.cons_append, List.nil_append, List.cons.injEq] at h
        obtain ⟨rfl, rfl, rfl, rfl, -⟩ := h
        simp [List.countP_cons, SchedEv.isStart, SchedEv.isEnd, SchedEv.isAppend]
      · simp only [List.cons_append, List.cons.injEq] at h
        obtain ⟨rfl, rfl, rfl, rfl, h⟩ := h
        obtain ⟨h1, h2⟩ := ih (e5 :: pre) suf h
        simp only [List.countP_cons, SchedEv.isStart, SchedEv.isEnd, SchedEv.isAppend] at *
        omega

/-- C2: the scheduler drains the queue strictly one item at a time in
FIFO order: `processQueue` is a no-op when already processing or on an
empty queue; a drain appends the records in enqueue order; in the drain
trace the append and orchestrator-start events occur in enqueue order,
every prefix has at most one orchestration in flight beyond the settled
ones (so item N+1 never starts before item N settles) and never more
starts than appended records (the record is appended before its
orchestrator runs); consecutive items are separated by the fixed delay. -/
theorem C2_scheduler_fifo_single_flight :
    (∀ (s : AppState) (envF : InputData → ItemEnv),
      (s.isProcessing = true ∨ s.queue = []) → processQueue s envF = s) ∧
    (∀ (s : AppState) (envF : InputData → ItemEnv),
      s.isProcessing = false → s.queue ≠ [] →
      (processQueue s envF).history.map ProcessedResult.id =
        s.history.map ProcessedResult.id ++ s.queue.map InputData.id) ∧
    (∀ q : List InputData,
      (drainTrace q).filterMap SchedEv.appendId = q.map InputData.id ∧
      (drainTrace q).filterMap SchedEv.startId = q.map InputData.id) ∧
    (∀ (q : List InputData) (pre suf : List SchedEv), drainTrace q = pre ++ suf →
      pre.countP SchedEv.isStart ≤ pre.countP SchedEv.isEnd + 1 ∧
      pre.countP SchedEv.isStart ≤ pre.countP SchedEv.isAppend) ∧
    (∀ (i j : InputData) (rest : List InputData),
      drainTrace (i :: j :: rest) =
        [SchedEv.append i.id, SchedEv.orchStart i.id, SchedEv.orchEnd i.id, SchedEv.delay]
          ++ drainTrace (j :: rest)) := by
  refine ⟨?_, ?_, ?_, fun q => drainTrace_prefix_counts q, fun i j rest => rfl⟩
  · intro s envF h
    unfold processQueue
    rw [if_pos h]
  · intro s envF h1 h2
    have hne : processQueue s envF =
        { s with queue := [], history := drain s.selectedMode envF s.queue s.history,
                 isProcessing := false } := by
      unfold processQueue
      rw [if_neg (by simp [h1, h2])]
    rw [hne]
    exact drain_map_id s.selectedMode envF s.queue s.history
  · intro q
    exact ⟨drainTrace_appendIds q, drainTrace_startIds q⟩

/-- Witness for C2: a busy scheduler is a no-op; a two-item drain appends
records in enqueue order; single-flight holds on a concrete trace. -/
theorem C2_scheduler_fifo_single_flight_witness :
    processQueue ⟨[sampleItem], [], true, .both⟩ (fun _ => okEnv) =
      ⟨[sampleItem], [], true, .both⟩ ∧
    (processQueue ⟨[sampleItem, sampleItem2], [], false, .both⟩
      (fun _ => okEnv)).history.map ProcessedResult.id = ["A", "B"] ∧
    (drainTrace [sampleItem]).countP SchedEv.isStart ≤
      (drainTrace [sampleItem]).countP SchedEv.isEnd + 1 := by
  refine ⟨C2_scheduler_fifo_single_flight.1 _ (fun _ => okEnv) (Or.inl rfl), ?_,
    (C2_scheduler_fifo_single_flight.2.2.2.1 [sampleItem] (drainTrace [sampleItem]) []
      (by simp)).1⟩
  have h := C2_scheduler_fifo_single_flight.2.1 ⟨[sampleItem, sampleItem2], [], false, .both⟩
    (fun _ => okEnv) rfl (by simp)
  simpa [sampleItem, sampleItem2] using h

/-- C3: `handleRetry` on a record id present in the history resets exactly
the paths matching the currently selected mode (state `processing`, log and
streamed text cleared, prior `output` preserved), discards the consolidated
result unconditionally, re-runs the orchestrator trace on the record's
original stored input, and leaves every other record (positionally)
unchanged in every field. -/
theorem C3_retry_resets_selected_paths_only
    (s : AppState) (env : ItemEnv) (i : String) (entry : ProcessedResult)
    (hfind : s.history.find? (fun h => h.id = i) = some entry)
    (hids : ∀ r ∈ s.history, r.input.id = r.id) :
    ((s.selectedMode.usesFlash = true →
        (retryResetRec s.selectedMode entry).flash =
          { entry.flash with status := .processing, logs := [], thinkingText := some "" }) ∧
     (s.selectedMode.usesFlash = false →
        (retryResetRec s.selectedMode entry).flash = entry.flash) ∧
     (s.selectedMode.usesPro = true →
        (retryResetRec s.selectedMode entry).pro =
          { entry.pro with status := .processing, logs := [], thinkingText := some "" }) ∧
     (s.selectedMode.usesPro = false →
        (retryResetRec s.selectedMode entry).pro = entry.pro) ∧
     (retryResetRec s.selectedMode entry).flash.output = entry.flash.output ∧
     (retryResetRec s.selectedMode entry).pro.output = entry.pro.output ∧
     (retryResetRec s.selectedMode entry).consolidated = none ∧
     (retryResetRec s.selectedMode entry).summary = entry.summary ∧
     (retryResetRec s.selectedMode entry).input = entry.input) ∧
    (handleRetry i s env).history =
      updAt i (fun h => applyRec (retryResetRec s.selectedMode h)
        (executeTrace entry.input s.selectedMode env)) s.history ∧
    (handleRetry i s env).history.length = s.history.length ∧
    (∀ (k : Nat) (hk : k < s.history.length), (s.history[k]).id ≠ i →
      (handleRetry i s env).history[k]? = some s.history[k]) := by
  have hid : entry.id = i := by
    have := List.find?_some hfind
    simpa using this
  have hmem := List.mem_of_find?_eq_some hfind
  have hinput : entry.input.id = i := (hids entry hmem).trans hid
  have hmain : (handleRetry i s env).history =
      updAt i (fun h => applyRec (retryResetRec s.selectedMode h)
        (executeTrace entry.input s.selectedMode env)) s.history := by
    unfold handleRetry
    simp only [hfind]
    rw [execHist_eq, hinput,
      updAt_updAt i (fun h => applyRec h (executeTrace entry.input s.selectedMode env))
        (retryResetRec s.selectedMode) (fun h => rfl)]
  refine ⟨⟨?_, ?_, ?_, ?_, ?_, ?_, rfl, rfl, rfl⟩, hmain, ?_, ?_⟩
  · intro h; simp [retryResetRec, retryResetPath, h]
  · intro h; simp [retryResetRec, retryResetPath, h]
  · intro h; simp [retryResetRec, retryResetPath, h]
  · intro h; simp [retryResetRec, retryResetPath, h]
  · cases hF : s.selectedMode.usesFlash <;> simp [retryResetRec, retryResetPath, hF]
  · cases hP : s.selectedMode.usesPro <;> simp [retryResetRec, retryResetPath, hP]
  · rw [hmain]; exact updAt_length _ _ _
  · intro k hk hne
    rw [hmain]
    unfold updAt
    rw [List.getElem?_map, List.getElem?_eq_getElem hk]
    simp [hne]

/-- Witness for C3: retry on the first of two records discards its
consolidated result and leaves the second record untouched. -/
theorem C3_retry_resets_selected_paths_only_witness :
    (retryResetRec Mode.both (newEntry sampleItem .both)).consolidated = none ∧
    (handleRetry "A"
        ⟨[], [newEntry sampleItem .both, newEntry sampleItem2 .both], false, .both⟩
        okEnv).history[1]? = some (newEntry sampleItem2 .both) := by
  have h := C3_retry_resets_selected_paths_only
    ⟨[], [newEntry sampleItem .both, newEntry sampleItem2 .both], false, .both⟩
    okEnv "A" (newEntry sampleItem .both) (by decide) (by decide)
  exact ⟨h.1.2.2.2.2.2.2.1, h.2.2.2 1 (by decide) (by decide)⟩

/-! Invariant preservation lemmas -/

theorem mem_updAt (i : String) (f : ProcessedResult → ProcessedResult)
    (hist : List ProcessedResult) (r : ProcessedResult) (hr : r ∈ updAt i f hist) :
    (∃ h0 ∈ hist, r = f h0) ∨ r ∈ hist := by
  unfold updAt at hr
  rcases List.mem_map.mp hr with ⟨h0, hh0, rfl⟩
  by_cases hi : h0.id = i
  · exact Or.inl ⟨h0, hh0, by simp [hi]⟩
  · right
    rw [if_neg hi]
    exact hh0

theorem recUpd_RecInv (m : Mut) (h : ProcessedResult) (hP : RecInv h) :
    RecInv (m.recUpd h) := by
  cases m with
  | appendEntry item mode => exact hP
  | clearHistory => exact hP
  | flashThinking i t => exact ⟨hP.1, hP.2.1, hP.2.2⟩
  | flashDone i p d =>
    refine ⟨fun _ => ?_, hP.2.1, hP.2.2⟩
    simp [Mut.recUpd, flashDoneUpd]
  | flashFail i e =>
    refine ⟨fun hc => ?_, hP.2.1, hP.2.2⟩
    simp [Mut.recUpd, failUpd] at hc
  | proThinking i t => exact ⟨hP.1, hP.2.1, hP.2.2⟩
  | proDone i p d =>
    refine ⟨hP.1, fun _ => ?_, hP.2.2⟩
    simp [Mut.recUpd, proDoneUpd]
  | proFail i e =>
    refine ⟨hP.1, fun hc => ?_, hP.2.2⟩
    simp [Mut.recUpd, failUpd] at hc
  | setSummary i s => exact ⟨hP.1, hP.2.1, hP.2.2⟩
  | consolInit i =>
    refine ⟨hP.1, hP.2.1, fun hc => ?_⟩
    simp [Mut.recUpd, consolInitRes] at hc
  | consolDone i p d =>
    refine ⟨hP.1, hP.2.1, fun _ => ?_⟩
    simp [Mut.recUpd, consolDoneRes]
  | consolFail i msg =>
    refine ⟨hP.1, hP.2.1, fun hc => ?_⟩
    simp [Mut.recUpd, consolFailRes] at hc
  | retryReset i mode =>
    refine ⟨?_, ?_, trivial⟩
    · cases hF : mode.usesFlash with
      | true =>
        intro hc
        simp [Mut.recUpd, retryResetRec, retryResetPath, hF] at hc
      | false =>
        have he : (Mut.recUpd (.retryReset i mode) h).flash = h.flash := by
          simp [Mut.recUpd, retryResetRec, hF]
        rw [completedHasOutput, he]
        exact hP.1
    · cases hPr : mode.usesPro with
      | true =>
        intro hc
        simp [Mut.recUpd, retryResetRec, retryResetPath, hPr] at hc
      | false =>
        have he : (Mut.recUpd (.retryReset i mode) h).pro = h.pro := by
          simp [Mut.recUpd, retryResetRec, hPr]
        rw [completedHasOutput, he]
        exact hP.2.1

theorem reachStep_keyed (m : Mut) (i : String) (hk : m.key = some i)
    (hist : List ProcessedResult) (r : ProcessedResult)
    (ih : ∀ r' ∈ hist, RecInv r') (hr : r ∈ applyMut hist m) : RecInv r := by
  rw [applyMut_keyed m i hk] at hr
  rcases mem_updAt _ _ _ _ hr with ⟨h0, hh0, rfl⟩ | hmem
  · exact recUpd_RecInv m h0 (ih h0 hh0)
  · exact ih r hmem

theorem reachable_RecInv (hist : List ProcessedResult) (hr : Reachable hist) :
    ∀ r ∈ hist, RecInv r := by
  induction hr with
  | nil => intro r hr'; simp at hr'
  | step hist m hrr ih =>
    intro r hr'
    cases m with
    | appendEntry item mode =>
      rcases List.mem_append.mp hr' with h1 | h2
      · exact ih r h1
      · have hre : r = newEntry item mode := by simpa using h2
        subst hre
        refine ⟨?_, ?_, trivial⟩
        · intro hc
          cases mode <;> simp [newEntry, initialRes] at hc
        · intro hc
          cases mode <;> simp [newEntry, initialRes] at hc
    | clearHistory => simp [applyMut] at hr'
    | flashThinking i t => exact reachStep_keyed (.flashThinking i t) i rfl hist r ih hr'
    | flashDone i p d => exact reachStep_keyed (.flashDone i p d) i rfl hist r ih hr'
    | flashFail i e => exact reachStep_keyed (.flashFail i e) i rfl hist r ih hr'
    | proThinking i t => exact reachStep_keyed (.proThinking i t) i rfl hist r ih hr'
    | proDone i p d => exact reachStep_keyed (.proDone i p d) i rfl hist r ih hr'
    | proFail i e => exact reachStep_keyed (.proFail i e) i rfl hist r ih hr'
    | setSummary i s => exact reachStep_keyed (.setSummary i s) i rfl hist r ih hr'
    | consolInit i => exact reachStep_keyed (.consolInit i) i rfl hist r ih hr'
    | consolDone i p d => exact reachStep_keyed (.consolDone i p d) i rfl hist r ih hr'
    | consolFail i msg => exact reachStep_keyed (.consolFail i msg) i rfl hist r ih hr'
    | retryReset i mode => exact reachStep_keyed (.retryReset i mode) i rfl hist r ih hr'

/-- C4 (amended): at every reachable state of the store, every fast and
deep resolution — and any consolidated resolution — whose state is
`Completed` has a non-null `resultPayload`; this direction is preserved by
record creation, streaming updates, completion and failure callbacks, and
retry resets.  The spec's full iff fails after a retry reset of a
completed path, which preserves the prior payload while setting the state
back to `Running` (see the counterexample). -/
theorem C4_completed_implies_payload_on_reachable
    (hist : List ProcessedResult) (hr : Reachable hist) :
    ∀ r ∈ hist, RecInv r :=
  reachable_RecInv hist hr

/-- Witness for C4: the one-record store after a dequeue is reachable and
satisfies the invariant. -/
theorem C4_completed_implies_payload_on_reachable_witness :
    Reachable [newEntry sampleItem .both] ∧ RecInv (newEntry sampleItem .both) := by
  have hreach : Reachable [newEntry sampleItem .both] :=
    Reachable.step [] (.appendEntry sampleItem .both) Reachable.nil
  exact ⟨hreach,
    C4_completed_implies_payload_on_reachable _ hreach (newEntry sampleItem .both) (by simp)⟩

/-- C4 counterexample: the store state reached by dequeueing an item,
completing its flash path and committing a retry reset is reachable, and
its record's flash resolution holds a payload while its state is
`processing` — refuting `resultPayload` non-null iff `state == Completed`
as a reachable-state invariant. -/
theorem C4_payload_iff_completed_counterexample :
    Reachable cexHist ∧
    cexHist = [cexRec] ∧
    cexRec.flash.output = some sampleProfile ∧
    cexRec.flash.status = .processing ∧
    ¬ outputIffCompleted cexRec.flash ∧
    ¬ (∀ hist, Reachable hist → ∀ r ∈ hist,
        outputIffCompleted r.flash ∧ outputIffCompleted r.pro) := by
  have hreach : Reachable cexHist :=
    Reachable.step _ _ (Reachable.step _ _ (Reachable.step _ _ Reachable.nil))
  have hlist : cexHist = [cexRec] := by decide
  refine ⟨hreach, hlist, by decide, by decide, ?_, ?_⟩
  · intro hiff
    have hc := hiff.mp (by decide)
    exact absurd hc (by decide)
  · intro hall
    have h := (hall cexHist hreach cexRec (by rw [hlist]; simp)).1
    have hc := h.mp (by decide)
    exact absurd hc (by decide)

/-- C5 counterexample: a run whose summarize call faults
(`summarizeTranscript` catches and returns its sentinel) leaves the
record's summary equal to the sentinel string — not absent. -/
theorem C5_summary_absent_on_fault_counterexample :
    summarizeTranscript none = "Summary generation failed." ∧
    (applyRec (newEntry sampleItem .both)
        (executeTrace sampleItem .both proFailEnv)).summary =
      some "Summary generation failed." ∧
    (applyRec (newEntry sampleItem .both)
        (executeTrace sampleItem .both proFailEnv)).summary ≠ none := by
  refine ⟨rfl, ?_, ?_⟩
  · rw [applyRec_executeTrace]
    rfl
  · rw [applyRec_executeTrace]
    simp

/-- C5 (amended): when the summarize call faults, the record's summary
field is set to the fixed sentinel `"Summary generation failed."`; the
summary write touches no other field, and the fast/deep/consolidation
outcome of the run is independent of the summarize outcome. -/
theorem C5_summary_sentinel_on_fault
    (item : InputData) (mode : Mode) (env : ItemEnv) (o₂ : Option String)
    (r : ProcessedResult) (hf : env.summaryOutcome = none) :
    (applyRec r (executeTrace item mode env)).summary =
      some "Summary generation failed." ∧
    (applyRec r (executeTrace item mode env)).flash =
      (applyRec r (executeTrace item mode { env with summaryOutcome := o₂ })).flash ∧
    (applyRec r (executeTrace item mode env)).pro =
      (applyRec r (executeTrace item mode { env with summaryOutcome := o₂ })).pro ∧
    (applyRec r (executeTrace item mode env)).consolidated =
      (applyRec r (executeTrace item mode { env with summaryOutcome := o₂ })).consolidated ∧
    (∀ (i s : String) (h : ProcessedResult),
      Mut.recUpd (.setSummary i s) h = { h with summary := some s }) := by
  rw [applyRec_executeTrace, applyRec_executeTrace]
  exact ⟨by rw [hf]; rfl, rfl, rfl, rfl, fun i s h => rfl⟩

/-- Witness for C5 at a concrete faulting run. -/
theorem C5_summary_sentinel_on_fault_witness :
    proFailEnv.summaryOutcome = none ∧
    (applyRec (newEntry sampleItem .both)
        (executeTrace sampleItem .both proFailEnv)).summary =
      some "Summary generation failed." :=
  ⟨rfl, (C5_summary_sentinel_on_fault sampleItem .both proFailEnv (some "ok")
    (newEntry sampleItem .both) rfl).1⟩

/-! CSV export lemmas -/

theorem jsOrNum_some (q : Rat) : jsOrNum (some q) = q := by
  unfold jsOrNum
  split <;> simp_all

theorem sentiment_toText_not_empty (s : Sentiment) : s.toText.isEmpty = false := by
  cases s <;> rfl

theorem jsOrStr_some_not_empty (t d : String) (ht : t.isEmpty = false) :
    jsOrStr (some t) d = t := by
  simp [jsOrStr, ht]

theorem jsOrStr_some_empty (d : String) : jsOrStr (some "") d = d := rfl

theorem jsOrStr_none (d : String) : jsOrStr none d = d := rfl

/-- C7 counterexample: a record whose consolidated profile is present but
has an empty `name` exports the source record's name, not the profile's
name — the Customer field is not sourced from the present consolidated
profile. -/
theorem C7_csv_fallback_counterexample :
    csvProfile cexCsvRec = some emptyNameProfile ∧
    emptyNameProfile.name = "" ∧
    cexCsvRec.input.customerRecord.name = "Ada" ∧
    (csvFields cexCsvRec)[1]? = some "Ada" ∧
    (csvFields cexCsvRec)[1]? ≠ some emptyNameProfile.name := by
  refine ⟨rfl, rfl, rfl, rfl, ?_⟩
  intro h
  simp only [csvFields, csvProfile] at h
  exact absurd h (by decide)

/-- C7 (amended): a CSV row reads all five non-ID fields from the first
present profile in the order consolidated → deep (pro) → fast (flash);
each field is then subject to JavaScript falsy fallback: an empty-string
name falls back to the source record's name, empty intent/tier fall back
to `'N/A'` (sentiment text is never empty, and zero confidence coincides
with its own fallback), and when no profile exists at all the Customer
field is the source record's name with placeholder values elsewhere. -/
theorem C7_csv_profile_fallback_with_falsy_semantics (h : ProcessedResult) :
    (∀ c oc, h.consolidated = some c → c.output = some oc → csvProfile h = some oc) ∧
    (h.consolidated.bind ConsolidatedResolution.output = none →
      csvProfile h = h.pro.output.or h.flash.output) ∧
    (∀ o, csvProfile h = some o →
      (csvFields h)[0]? = some h.id ∧
      (o.name ≠ "" → (csvFields h)[1]? = some o.name) ∧
      (o.name = "" → (csvFields h)[1]? = some h.input.customerRecord.name) ∧
      (csvFields h)[2]? = some o.latest_sentiment.toText ∧
      (o.identified_intent ≠ "" → (csvFields h)[3]? = some o.identified_intent) ∧
      (csvFields h)[4]? = some (ratText o.confidence_score) ∧
      (o.current_tier ≠ "" → (csvFields h)[5]? = some o.current_tier)) ∧
    (csvProfile h = none →
      csvFields h = [h.id, h.input.customerRecord.name, "N/A", "N/A", ratText 0, "N/A"]) := by
  refine ⟨?_, ?_, ?_, ?_⟩
  · intro c oc hc hoc
    simp [csvProfile, hc, hoc]
  · intro hn
    simp [csvProfile, hn]
  · intro o ho
    have hfields : csvFields h =
        [h.id,
         jsOrStr (some o.name) h.input.customerRecord.name,
         jsOrStr (some o.latest_sentiment.toText) "N/A",
         jsOrStr (some o.identified_intent) "N/A",
         ratText (jsOrNum (some o.confidence_score)),
         jsOrStr (some o.current_tier) "N/A"] := by
      simp [csvFields, ho]
    rw [hfields]
    refine ⟨rfl, ?_, ?_, ?_, ?_, ?_, ?_⟩
    · intro hne
      have : o.name.isEmpty = false := by
        rw [Bool.eq_false_iff]
        intro he
        exact hne ((String.isEmpty_iff o.name).mp he)
      simp [jsOrStr, this]
    · intro he
      rw [he]
      rfl
    · simp [jsOrStr, sentiment_toText_not_empty]
    · intro hne
      have : o.identified_intent.isEmpty = false := by
        rw [Bool.eq_false_iff]
        intro he
        exact hne ((String.isEmpty_iff o.identified_intent).mp he)
      simp [jsOrStr, this]
    · rw [jsOrNum_some]
      rfl
    · intro hne
      have : o.current_tier.isEmpty = false := by
        rw [Bool.eq_false_iff]
        intro he
        exact hne ((String.isEmpty_iff o.current_tier).mp he)
      simp [jsOrStr, this]
  · intro hn
    simp [csvFields, hn, jsOrStr, jsOrNum]

/-- Witness for C7: a record with only a fast result exports the fast
profile's fields. -/
theorem C7_csv_profile_fallback_with_falsy_semantics_witness :
    csvProfile flashOnlyRec = some sampleProfile ∧
    (csvFields flashOnlyRec)[1]? = some "Ada L" ∧
    (csvFields flashOnlyRec)[2]? = some "Positive" ∧
    (csvFields flashOnlyRec)[5]? = some "Gold" := by
  have h := (C7_csv_profile_fallback_with_falsy_semantics flashOnlyRec).2.2.1
    sampleProfile rfl
  exact ⟨rfl, h.2.1 (by decide), h.2.2.2.1, h.2.2.2.2.2.2 (by decide)⟩

/-! CSV column-count lemmas -/

theorem numCols_join6 (a b c d e f : String) :
    numCols (joinSep "," [a, b, c, d, e, f]) =
      6 + (a.data.count ',' + b.data.count ',' + c.data.count ',' +
           d.data.count ',' + e.data.count ',' + f.data.count ',') := by
  have hc : (",").data.count ',' = 1 := by decide
  unfold numCols
  simp only [joinSep, String.data_append, List.count_append, hc]
  omega

/-- C10: a CSV row is the plain comma join of its six field values with no
quoting or escaping: the header has exactly six comma-separated columns,
every data row has six plus the number of comma characters occurring in
its field values, and a row any of whose effective field values (such as
the Customer name, the intent, or the tier) contains a comma has more than
six comma-separated columns. -/
theorem C10_csv_unescaped_commas (h : ProcessedResult) :
    csvRow h = joinSep "," (csvFields h) ∧
    numCols csvHeader = 6 ∧
    numCols (csvRow h) =
      6 + ((csvFields h).map (fun f => f.data.count ',')).sum ∧
    (∀ f ∈ csvFields h, ',' ∈ f.data → 6 < numCols (csvRow h)) := by
  have h3 : numCols (csvRow h) =
      6 + ((csvFields h).map (fun f => f.data.count ',')).sum := by
    simp only [csvRow, csvFields]
    rw [numCols_join6]
    simp only [List.map_cons, List.map_nil, List.sum_cons, List.sum_nil]
    omega
  refine ⟨rfl, by decide, h3, ?_⟩
  intro f hf hcomma
  have hpos : 0 < f.data.count ',' := by
    rw [List.count_pos_iff]
    exact hcomma
  have hle : f.data.count ',' ≤ ((csvFields h).map (fun f => f.data.count ',')).sum :=
    List.single_le_sum (fun x _ => Nat.zero_le x) _
      (List.mem_map_of_mem _ hf)
  omega

/-- Witness for C10: a record whose effective Customer value contains a
comma yields a row with more than six columns. -/
theorem C10_csv_unescaped_commas_witness :
    numCols csvHeader = 6 ∧ 6 < numCols (csvRow commaRec) := by
  have h := C10_csv_unescaped_commas commaRec
  exact ⟨h.2.1, h.2.2.2 "Doe, John" (by decide) (by decide)⟩

/-- C9: the mode applied to every item of one drain is the mode captured
when `processQueue` was invoked: interleaved `setSelectedMode` commits do
not alter the mode applied to the remaining items or the resulting
history of that drain; only a later `processQueue` invocation reads the
new mode. -/
theorem C9_mode_captured_at_drain_start
    (m0 : Mode) (envF : InputData → ItemEnv) (q : List InputData)
    (changes : List (Option Mode)) (hist : List ProcessedResult) (ui : Mode) :
    (drainUI m0 envF q changes hist ui).applied = List.replicate q.length m0 ∧
    (drainUI m0 envF q changes hist ui).history = drain m0 envF q hist ∧
    (∀ s : AppState, s.isProcessing = false → s.queue ≠ [] →
      (processQueue s envF).history = drain s.selectedMode envF s.queue s.history) := by
  refine ⟨?_, ?_, ?_⟩
  · induction q generalizing changes hist ui with
    | nil => rfl
    | cons i rest ih =>
      simp only [drainUI, List.length_cons, List.replicate_succ]
      rw [ih]
  · induction q generalizing changes hist ui with
    | nil => rfl
    | cons i rest ih =>
      simp only [drainUI, drain]
      exact ih changes.tail _ _
  · intro s h1 h2
    have hne : processQueue s envF =
        { s with queue := [], history := drain s.selectedMode envF s.queue s.history,
                 isProcessing := false } := by
      unfold processQueue
      rw [if_neg (by simp [h1, h2])]
    rw [hne]

/-- Witness for C9: a two-item drain started in Flash mode applies Flash
to both items even though the UI mode changes to Pro mid-drain, and a
later start reads the newly selected mode. -/
theorem C9_mode_captured_at_drain_start_witness :
    (drainUI .flash (fun _ => okEnv) [sampleItem, sampleItem2]
      [some .pro, none] [] .flash).applied = [Mode.flash, Mode.flash] ∧
    (processQueue ⟨[sampleItem], [], false, .pro⟩ (fun _ => okEnv)).history =
      drain .pro (fun _ => okEnv) [sampleItem] [] := by
  have h := C9_mode_captured_at_drain_start .flash (fun _ => okEnv)
    [sampleItem, sampleItem2] [some .pro, none] [] .flash
  exact ⟨h.1, h.2.2 ⟨[sampleItem], [], false, .pro⟩ rfl (by simp)⟩

/-! Persistence round-trip lemmas -/

theorem decList_roundtrip {α : Type} (dec : Json → Option α) (enc : α → Json)
    (hde : ∀ a : α, dec (enc a) = some a) (l : List α) :
    decList dec (l.map enc) = some l := by
  induction l with
  | nil => rfl
  | cons a as ih => simp [decList, hde, ih]

theorem decStrs_strs (l : List String) : decStrs (.arr (l.map Json.str)) = some l := by
  show decList decStr (l.map Json.str) = some l
  exact decList_roundtrip decStr Json.str (fun s => rfl) l

theorem decSentiment_toText (s : Sentiment) : decSentiment (.str s.toText) = some s := by
  cases s <;> rfl

theorem decStatus_toText (st : Status) : decStatus (.str st.toText) = some st := by
  cases st <;> rfl

theorem decProfile_enc (p : MergedProfile) : decProfile (encProfile p) = some p := by
  obtain ⟨cid, nm, em, ph, tier, sent, intent, upd, conf, reas⟩ := p
  cases reas <;> cases sent <;>
    simp [encProfile, decProfile, getField, optField, decStr, decSentiment,
      Sentiment.toText, decStrs, decList_roundtrip decStr Json.str (fun s => rfl),
      decNum, decOptField]

theorem decNullable_null {α : Type} (dec : Json → Option α) :
    decNullable dec .null = some none := rfl

theorem decNullable_encProfile (p : MergedProfile) :
    decNullable decProfile (encProfile p) = some (some p) := by
  have h1 : decNullable decProfile (encProfile p) =
      (decProfile (encProfile p)).map some := rfl
  rw [h1, decProfile_enc]
  rfl

theorem decCustomer_enc (c : CustomerRecord) : decCustomer (encCustomer c) = some c := by
  obtain ⟨cid, nm, em, ph, tier, lu⟩ := c
  cases ph <;>
    simp [encCustomer, decCustomer, getField, decStr, decNullable]

theorem decInput_enc (i : InputData) : decInput (encInput i) = some i := by
  obtain ⟨id, cr, ct, ts⟩ := i
  simp [encInput, decInput, getField, decStr, decInt, decCustomer_enc,
    Rat.den_intCast, Rat.num_intCast]

theorem decResolution_enc (m : ModelResolution) :
    decResolution (encResolution m) = some m := by
  obtain ⟨out, logs, dur, st, tt⟩ := m
  cases out <;> cases tt <;>
    simp [encResolution, decResolution, getField, optField, decStr, decNum,
      decStatus_toText, decStrs_strs, decOptField, decNullable_null, decNullable_encProfile]

theorem decConsolidated_enc (c : ConsolidatedResolution) :
    decConsolidated (encConsolidated c) = some c := by
  obtain ⟨out, logs, dur, st⟩ := c
  cases out <;>
    simp [encConsolidated, decConsolidated, getField, decStr, decNum,
      decStatus_toText, decStrs_strs, decNullable_null, decNullable_encProfile]

theorem decResult_enc (r : ProcessedResult) : decResult (encResult r) = some r := by
  obtain ⟨id, inp, fl, pr, cons, summ⟩ := r
  cases cons <;> cases summ <;>
    simp [encResult, decResult, getField, optField, decStr, decOptField,
      decInput_enc, decResolution_enc, decConsolidated_enc]

/-- C8: serializing `{queue, history}` to its persisted JSON form and
deserializing it yields a structurally equal queue and history, for every
queue and history value, including records with the optional
`consolidated`, `summary`, streamed-text and `reasoning_insight` fields
absent or present. -/
theorem C8_persistence_round_trip (queue : List InputData)
    (history : List ProcessedResult) :
    decState (encState queue history) = some (queue, history) := by
  simp [encState, decState, getField,
    decList_roundtrip decInput encInput decInput_enc,
    decList_roundtrip decResult encResult decResult_enc]

/-! Reachable-state record properties (justifying the `hids` hypothesis of
the retry theorem: every reachable history stores records whose `input.id`
equals their `id`). -/

theorem reachStep_keyed_pred {P : ProcessedResult → Prop}
    (hP : ∀ (m : Mut) (h : ProcessedResult), P h → P (m.recUpd h))
    (m : Mut) (i : String) (hk : m.key = some i)
    (hist : List ProcessedResult) (r : ProcessedResult)
    (ih : ∀ r' ∈ hist, P r') (hr : r ∈ applyMut hist m) : P r := by
  rw [applyMut_keyed m i hk] at hr
  rcases mem_updAt _ _ _ _ hr with ⟨h0, hh0, rfl⟩ | hmem
  · exact hP m h0 (ih h0 hh0)
  · exact ih r hmem

theorem reachable_pred (P : ProcessedResult → Prop)
    (hP : ∀ (m : Mut) (h : ProcessedResult), P h → P (m.recUpd h))
    (hnew : ∀ item mode, P (newEntry item mode))
    (hist : List ProcessedResult) (hr : Reachable hist) : ∀ r ∈ hist, P r := by
  induction hr with
  | nil => intro r h; simp at h
  | step hist m hrr ih =>
    intro r hr'
    cases m with
    | appendEntry item mode =>
      rcases List.mem_append.mp hr' with h1 | h2
      · exact ih r h1
      · have hre : r = newEntry item mode := by simpa using h2
        subst hre
        exact hnew item mode
    | clearHistory => simp [applyMut] at hr'
    | flashThinking i t => exact reachStep_keyed_pred hP (.flashThinking i t) i rfl hist r ih hr'
    | flashDone i p d => exact reachStep_keyed_pred hP (.flashDone i p d) i rfl hist r ih hr'
    | flashFail i e => exact reachStep_keyed_pred hP (.flashFail i e) i rfl hist r ih hr'
    | proThinking i t => exact reachStep_keyed_pred hP (.proThinking i t) i rfl hist r ih hr'
    | proDone i p d => exact reachStep_keyed_pred hP (.proDone i p d) i rfl hist r ih hr'
    | proFail i e => exact reachStep_keyed_pred hP (.proFail i e) i rfl hist r ih hr'
    | setSummary i s => exact reachStep_keyed_pred hP (.setSummary i s) i rfl hist r ih hr'
    | consolInit i => exact reachStep_keyed_pred hP (.consolInit i) i rfl hist r ih hr'
    | consolDone i p d => exact reachStep_keyed_pred hP (.consolDone i p d) i rfl hist r ih hr'
    | consolFail i msg => exact reachStep_keyed_pred hP (.consolFail i msg) i rfl hist r ih hr'
    | retryReset i mode => exact reachStep_keyed_pred hP (.retryReset i mode) i rfl hist r ih hr'

theorem reachable_input_id (hist : List ProcessedResult) (hr : Reachable hist) :
    ∀ r ∈ hist, r.input.id = r.id :=
  reachable_pred (fun r => r.input.id = r.id)
    (fun m h hp => by show (m.recUpd h).input.id = (m.recUpd h).id
                      rw [recUpd_input, recUpd_id]; exact hp)
    (fun item mode => rfl) hist hr
